import Mathlib

/-!
Verification development for `opennmt/decoders/self_attention_decoder.py`
(OpenNMT-tf).  The decoder's time dimension is modelled explicitly: a
`[batch, time, units]` activation tensor is a `List α` of per-timestep
slices (each slice is a `[batch, units]` sub-tensor, kept abstract since
the concrete multi-head-attention / feed-forward numerics are external
collaborators exposed only through their input/output/cache contracts).
Key/value cache tensors of shape `[batch, heads, time, head_dim]` are
`T4` values carrying their `batch`/`heads`/`head_dim` extents together
with a time-major list of slices; note a zero-time tensor holds no data
at all, so `tf.zeros([b, h, 0, d])` is represented exactly.
Python runtime failures reachable from this file (the `zip` over a
`None` mask, the unbound `attention` variable when there are no layers,
`cache[i]` indexing, `tf.squeeze` on a non-singleton axis) are modelled
with `Except PyErr`.  Per-batch-row length vectors are modelled as
batch-uniform scalar lengths (the mask data), since the decoder only
packages them into masks consumed by the abstract attention collaborator.
-/

/-- Python-level failures reachable from the decoder source. -/
inductive PyErr : Type
  /-- `TypeError` from `zip(...)` when one argument is `None`. -/
  | typeErrorZipNone : PyErr
  /-- `NameError` reading the loop variable `attention` when no layer ran. -/
  | nameErrorAttention : PyErr
  /-- `IndexError` from `cache[i]` when the cache list is too short. -/
  | indexError : PyErr
  /-- `ValueError("Scheduled sampling is not supported by this decoder")`. -/
  | valueErrorScheduledSampling : PyErr
  /-- `tf.squeeze(x, axis=1)` on an axis whose extent is not 1. -/
  | squeezeError : PyErr
deriving DecidableEq, Repr

/-- Self-attention mask data built by `transformer.future_mask(sequence_length,
maximum_length)`: the combination of the causal (lower-triangular) mask with the
padding mask of the given sequence length, sized to `maxLen` key positions. -/
structure Mask : Type where
  len : Nat
  maxLen : Nat
deriving DecidableEq, Repr

/-- Meaning of the combined causal + padding mask: query position `p` may
attend to key position `j` iff `j ≤ p` (no future positions) and `j < len`
(no padding positions). -/
def Mask.allows (m : Mask) (p j : Nat) : Bool :=
  decide (j ≤ p) && decide (j < m.len)

/-- Memory (cross-attention) padding mask data built by
`tf.sequence_mask(mem_length, maxlen=tf.shape(mem)[1])` and expanded on axis 1:
valid key positions are those below `len`, out of `maxLen` memory positions. -/
structure MemMask : Type where
  len : Nat
  maxLen : Nat
deriving DecidableEq, Repr

/-- A `[batch, heads, time, head_dim]` key or value tensor: explicit extents
plus the time-major list of per-timestep `[batch, heads, head_dim]` slices
(abstract type `κ`); the time extent is `slices.length`. -/
structure T4 (κ : Type) : Type where
  batch : Nat
  heads : Nat
  headDim : Nat
  slices : List κ
deriving DecidableEq, Repr

/-- Shape of a `T4` tensor, as `tf.shape` would report it. -/
def T4.shape {κ : Type} (t : T4 κ) : List Nat :=
  [t.batch, t.heads, t.slices.length, t.headDim]

/-- One cached (keys, values) pair of an attention sublayer. -/
structure AttnCache (κ : Type) : Type where
  keys : T4 κ
  values : T4 κ
deriving DecidableEq, Repr

/-- Zero-time (keys, values) pair, i.e. the pair of
`tf.zeros([batch, heads, 0, headDim])` tensors. -/
def AttnCache.zeros (κ : Type) (batch heads headDim : Nat) : AttnCache κ :=
  ⟨⟨batch, heads, headDim, []⟩, ⟨batch, heads, headDim, []⟩⟩

/-- One decoder layer's slice of the cache: the dict
`dict(self_kv=..., memory_kv=...)` built in `_SelfAttentionDecoderLayer.call`. -/
structure LayerCache (κ : Type) : Type where
  self_kv : AttnCache κ
  memory_kv : List (AttnCache κ)
deriving DecidableEq, Repr

/-- A `memory` / `memory_sequence_length` argument: either a bare value or an
ordered sequence, normalized by `_run` via
`if not isinstance(x, (list, tuple)): x = (x,)`. -/
inductive MemoryArg (β : Type) : Type
  | one (x : β)
  | many (xs : List β)
deriving DecidableEq, Repr

/-- Normalization of a `MemoryArg` into an ordered sequence. -/
def MemoryArg.norm {β : Type} : MemoryArg β → List β
  | .one x => [x]
  | .many xs => xs

/-- Truncating 4-way zip, as Python's `zip` over four iterables. -/
def zip4 {a b c d : Type} : List a → List b → List c → List d → List (a × b × c × d)
  | x :: xs, y :: ys, z :: zs, w :: ws => (x, y, z, w) :: zip4 xs ys zs ws
  | _, _, _, _ => []

/-- Batch extent of the leading slice of a time-major tensor (`tf.shape(x)[0]`),
with `bOf` the collaborator-supplied shape query on a slice. -/
def headBatch {α : Type} (bOf : α → Nat) (xs : List α) : Nat :=
  (xs.head?.map bOf).getD 0

/-- Modelled from the spec: `common.dropout` (its sampling is an excluded
collaborator).  `drop` is a deterministic abstraction of one dropout
application; dropout is inactive when not in training mode. -/
def dropoutModel {α : Type} (drop : α → α) (training : Bool) (x : α) : α :=
  if training then drop x else x

/-- Modelled from the spec: `SinusoidalPositionEncoder.__call__` with
`position=None` applies the encoding at the sequence's natural absolute
positions `1..T` (the incremental mode passes `position = step + 1`);
`pe p` is the abstract encoding application at absolute position `p`. -/
def posIndexed {α : Type} (pe : Nat → α → α) : Nat → List α → List α
  | _, [] => []
  | p, x :: xs => pe p x :: posIndexed pe (p + 1) xs

/-- One memory-attention sublayer (`transformer.MultiHeadAttention` wrapped in
a `TransformerLayerWrapper`), with its learned maps kept abstract:
`normIn` is the wrapper's input normalization, `combine` the residual /
dropout recombination, `projK`/`projV` the per-timestep memory key/value
projections, `attend` the attention output for one query slice over the
cached memory keys/values under an optional padding mask, and `weights`
the per-head attention weights (`[batch, heads, mem_time]` slice, abstract
type `γf`) for one query slice.  `retAttn` is the `return_attention`
construction flag. -/
structure CrossAttnLayer (α κ γf : Type) : Type where
  normIn : α → α
  combine : α → α → α
  projK : α → κ
  projV : α → κ
  attend : α → List κ → List κ → Option MemMask → α
  weights : α → List κ → List κ → Option MemMask → γf
  retAttn : Bool

/-- One `_SelfAttentionDecoderLayer`: self-attention sublayer maps, the
ordered memory-attention sublayers, and the feed-forward sublayer maps,
each with its wrapper's normalization and recombination. -/
structure DecLayer (α κ γf : Type) : Type where
  units : Nat
  heads : Nat
  selfNorm : α → α
  selfCombine : α → α → α
  selfProjK : α → κ
  selfProjV : α → κ
  selfAttend : α → List (κ × κ) → α
  cross : List (CrossAttnLayer α κ γf)
  ffnNorm : α → α
  ffnCombine : α → α → α
  ffn : α → α

/-- Modelled from the spec: index-aware filtering of the key/value history by
the combined causal + padding mask (`j` is the key position of the head of
the list). -/
def maskFilter {κ : Type} (m : Mask) (p : Nat) : Nat → List (κ × κ) → List (κ × κ)
  | _, [] => []
  | j, kv :: rest =>
    if m.allows p j then kv :: maskFilter m p (j + 1) rest
    else maskFilter m p (j + 1) rest

/-- Modelled from the spec: the key/value history visible to the query at
absolute position `p`; without a mask the full history is visible
(incremental mode), with a mask only the unmasked positions are. -/
def visibleKVs {κ : Type} (mask : Option Mask) (p : Nat) (kvs : List (κ × κ)) :
    List (κ × κ) :=
  match mask with
  | none => kvs
  | some m => maskFilter m p 0 kvs

/-- Modelled from the spec: the per-query outputs of the self-attention
sublayer; the query at list offset `i` sits at absolute position `p + i`
(`p` is the number of previously cached timesteps) and attends over its
visible slice of the full key/value history. -/
def mhaSelfGo {α κ : Type} (attendF : α → List (κ × κ) → α) (mask : Option Mask)
    (allKV : List (κ × κ)) : Nat → List α → List α
  | _, [] => []
  | p, q :: qs => attendF q (visibleKVs mask p allKV) :: mhaSelfGo attendF mask allKV (p + 1) qs

/-- Modelled from the spec: `transformer.MultiHeadAttention` in self-attention
mode with cache — it appends the current timesteps' key/value projections to
the cached history and attends over the full history (restricted by the mask
when one is given).  A missing cache starts from an empty history. -/
def mhaSelf {α κ : Type} (bOf : α → Nat) (heads headDim : Nat) (pk pv : α → κ)
    (attendF : α → List (κ × κ) → α) (mask : Option Mask)
    (cache : Option (AttnCache κ)) (qs : List α) : List α × AttnCache κ :=
  let c := cache.getD (AttnCache.zeros κ (headBatch bOf qs) heads headDim)
  let allK := c.keys.slices ++ qs.map pk
  let allV := c.values.slices ++ qs.map pv
  (mhaSelfGo attendF mask (allK.zip allV) c.keys.slices.length qs,
   ⟨⟨c.keys.batch, c.keys.heads, c.keys.headDim, allK⟩,
    ⟨c.values.batch, c.values.heads, c.values.headDim, allV⟩⟩)

/-- Modelled from the spec: the freshly computed memory key/value projections
of one source (`[batch, heads, mem_time, head_dim]`). -/
def projMem {α κ γf : Type} (bOf : α → Nat) (heads headDim : Nat)
    (cw : CrossAttnLayer α κ γf) (mem : List α) : AttnCache κ :=
  ⟨⟨headBatch bOf mem, heads, headDim, mem.map cw.projK⟩,
   ⟨headBatch bOf mem, heads, headDim, mem.map cw.projV⟩⟩

/-- Modelled from the spec: `transformer.MultiHeadAttention` in memory mode
computes the memory key/value projections once and reuses them across
timesteps — a supplied cache is reused unless its time extent is 0, in which
case the projections are (re)computed. -/
def resolveMemKV {α κ γf : Type} (bOf : α → Nat) (heads headDim : Nat)
    (cw : CrossAttnLayer α κ γf) (mem : List α) (cache : Option (AttnCache κ)) :
    AttnCache κ :=
  match cache with
  | none => projMem bOf heads headDim cw mem
  | some c => if c.keys.slices.isEmpty then projMem bOf heads headDim cw mem else c

/-- Modelled from the spec: `transformer.MultiHeadAttention` in memory
(cross-attention) mode; returns the per-query outputs, the resolved memory
key/value cache, and — only when constructed with `return_attention` — the
per-query, per-head attention weights. -/
def mhaCross {α κ γf : Type} (bOf : α → Nat) (heads headDim : Nat)
    (cw : CrossAttnLayer α κ γf) (mem : List α) (mask : Option MemMask)
    (cache : Option (AttnCache κ)) (qs : List α) :
    List α × AttnCache κ × Option (List γf) :=
  let kv := resolveMemKV bOf heads headDim cw mem cache
  (qs.map fun q => cw.attend q kv.keys.slices kv.values.slices mask,
   kv,
   if cw.retAttn then
     some (qs.map fun q => cw.weights q kv.keys.slices kv.values.slices mask)
   else none)

/-- Modelled from the spec: `TransformerLayerWrapper` around the
self-attention sublayer — normalize the input, run the sublayer, recombine
with the residual, forwarding the cache through. -/
def selfAttnWrapped {α κ γf : Type} (bOf : α → Nat) (ly : DecLayer α κ γf)
    (mask : Option Mask) (cache : Option (AttnCache κ)) (xs : List α) :
    List α × AttnCache κ :=
  let r := mhaSelf bOf ly.heads (ly.units / ly.heads) ly.selfProjK ly.selfProjV
    ly.selfAttend mask cache (xs.map ly.selfNorm)
  (List.zipWith ly.selfCombine xs r.1, r.2)

/-- Modelled from the spec: `TransformerLayerWrapper` around one
memory-attention sublayer. -/
def crossWrapped {α κ γf : Type} (bOf : α → Nat) (heads headDim : Nat)
    (cw : CrossAttnLayer α κ γf) (mem : List α) (mask : Option MemMask)
    (cache : Option (AttnCache κ)) (xs : List α) :
    List α × AttnCache κ × Option (List γf) :=
  let r := mhaCross bOf heads headDim cw mem mask cache (xs.map cw.normIn)
  (List.zipWith cw.combine xs r.1, r.2.1, r.2.2)

/-- Modelled from the spec: `TransformerLayerWrapper` around the
position-wise feed-forward sublayer, applied slice-wise. -/
def ffnApply {α κ γf : Type} (ly : DecLayer α κ γf) (xs : List α) : List α :=
  xs.map fun x => ly.ffnCombine x (ly.ffn (ly.ffnNorm x))

/-- The memory-attention loop of `_SelfAttentionDecoderLayer.call`:
`for layer, mem, mem_mask, mem_cache in zip(self.attention, memory,
memory_mask, memory_cache)`, threading the running outputs, collecting the
per-source caches in order, and overwriting `attention` with the first head
of the weights whenever the sublayer returned them. -/
def crossLoop {α κ γf γ : Type} (bOf : α → Nat) (fh : γf → γ) (heads headDim : Nat) :
    List (CrossAttnLayer α κ γf × List α × MemMask × Option (AttnCache κ)) →
    List α → Option (List γ) → List α × List (AttnCache κ) × Option (List γ)
  | [], qs, attn => (qs, [], attn)
  | (cw, mem, mk, mc) :: rest, qs, attn =>
    let r := crossWrapped bOf heads headDim cw mem (some mk) mc qs
    let attn2 := match r.2.2 with
      | some ws => some (ws.map fh)
      | none => attn
    let rec1 := crossLoop bOf fh heads headDim rest r.1 attn2
    (rec1.1, r.2.1 :: rec1.2.1, rec1.2.2)

/-- `_SelfAttentionDecoderLayer.call`: self-attention, then one attention per
zipped memory source, then the feed-forward sublayer; returns the outputs,
the layer's new cache dict, and the (possibly `None`) captured attention.
With `memory` present but `memory_mask` equal to `None`, the Python `zip`
raises `TypeError`. -/
def DecLayer.call {α κ γf γ : Type} (bOf : α → Nat) (fh : γf → γ)
    (ly : DecLayer α κ γf) (xs : List α) (mask : Option Mask)
    (memory : Option (List (List α))) (memoryMask : Option (List MemMask))
    (cache : Option (LayerCache κ)) :
    Except PyErr (List α × LayerCache κ × Option (List γ)) :=
  let s := selfAttnWrapped bOf ly mask (cache.map (·.self_kv)) xs
  match memory with
  | none => .ok (ffnApply ly s.1, ⟨s.2, []⟩, none)
  | some mems =>
    match memoryMask with
    | none => .error PyErr.typeErrorZipNone
    | some masks =>
      let mcs : List (Option (AttnCache κ)) :=
        match cache with
        | some c => c.memory_kv.map some
        | none => List.replicate ly.cross.length none
      let r := crossLoop bOf fh ly.heads (ly.units / ly.heads)
        (zip4 ly.cross mems masks mcs) s.1 none
      .ok (ffnApply ly r.1, ⟨s.2, r.2.1⟩, r.2.2)

/-- The `SelfAttentionDecoder` stack: configuration, the collaborator maps it
owns (input scaling by `num_units ** 0.5`, optional position encoding, the
dropout abstraction, final layer normalization, the output projection to
logits), the tensor-library shape query `batchOf` and head selection
`firstHead` (`attention[:, 0]`), and the ordered layers. -/
structure SelfAttentionDecoder (α κ γf γ δ : Type) : Type where
  numUnits : Nat
  numHeads : Nat
  numSources : Nat
  scale : α → α
  posEnc : Option (Nat → α → α)
  drop : α → α
  layerNorm : α → α
  outputLayer : α → δ
  batchOf : α → Nat
  firstHead : γf → γ
  layers : List (DecLayer α κ γf)

/-- `SelfAttentionDecoder.__init__`: builds `num_layers` layers, each with
`num_sources` memory-attention sublayers constructed with
`return_attention=num_sources == 1`.  The learned sublayer maps are supplied
by the abstract initializers `layerW` and `crossW`. -/
def SelfAttentionDecoder.init {α κ γf γ δ : Type} (numLayers numUnits numHeads numSources : Nat)
    (scale : α → α) (posEnc : Option (Nat → α → α)) (drop layerNorm : α → α)
    (outputLayer : α → δ) (batchOf : α → Nat) (firstHead : γf → γ)
    (layerW : Nat → DecLayer α κ γf) (crossW : Nat → Nat → CrossAttnLayer α κ γf) :
    SelfAttentionDecoder α κ γf γ δ :=
  { numUnits := numUnits
    numHeads := numHeads
    numSources := numSources
    scale := scale
    posEnc := posEnc
    drop := drop
    layerNorm := layerNorm
    outputLayer := outputLayer
    batchOf := batchOf
    firstHead := firstHead
    layers := (List.range numLayers).map fun i =>
      { layerW i with
        units := numUnits
        heads := numHeads
        cross := (List.range numSources).map fun j =>
          { crossW i j with retAttn := numSources == 1 } } }

/-- Structural facts established by `SelfAttentionDecoder.__init__`: every
layer has `num_sources` memory-attention sublayers, each constructed with
`return_attention = (num_sources == 1)`, and the configured dimensions. -/
def SelfAttentionDecoder.wellFormed {α κ γf γ δ : Type}
    (D : SelfAttentionDecoder α κ γf γ δ) : Prop :=
  ∀ ly ∈ D.layers, ly.units = D.numUnits ∧ ly.heads = D.numHeads ∧
    ly.cross.length = D.numSources ∧
    ∀ cw ∈ ly.cross, cw.retAttn = (D.numSources == 1)

/-- Input processing of `_run` (lines 87-91): scale by `num_units ** 0.5`,
apply position encoding (at `position = step + 1` in incremental mode, at the
natural absolute positions `1..T` otherwise, skipped when no position encoder
is configured), then dropout. -/
def processInputs {α κ γf γ δ : Type} (D : SelfAttentionDecoder α κ γf γ δ)
    (inputs : List α) (stepo : Option Nat) (training : Bool) : List α :=
  let xs := inputs.map D.scale
  let xs := match D.posEnc with
    | none => xs
    | some pe =>
      match stepo with
      | some t => xs.map (pe (t + 1))
      | none => posIndexed pe 1 xs
  xs.map (dropoutModel D.drop training)

/-- Query-mask construction of `_run` (lines 93-97): a combined causal +
padding mask via `transformer.future_mask` iff `sequence_length` was
supplied, sized to the current input time extent. -/
def selfAttnMask (sequenceLength : Option Nat) (maxLen : Nat) : Option Mask :=
  sequenceLength.map fun L => ⟨L, maxLen⟩

/-- Memory-mask construction of `_run` (lines 100-111): one padding mask per
`zip`ped (memory, length) pair when `memory_sequence_length` was supplied;
`zip` over a `None` memory raises `TypeError`. -/
def buildMemoryMask {α : Type} (memN : Option (List (List α)))
    (msl : Option (MemoryArg Nat)) : Except PyErr (Option (List MemMask)) :=
  match msl with
  | none => .ok none
  | some ls =>
    match memN with
    | none => .error PyErr.typeErrorZipNone
    | some mems => .ok (some ((mems.zip ls.norm).map fun p => ⟨p.2, p.1.length⟩))

/-- The layer loop of `_run` (lines 113-123): feed the inputs through each
layer, handing layer `i` the cache slice `cache[i]` (an `IndexError` if the
supplied cache list is too short), collecting the new per-layer caches, and
rebinding `attention` to each layer's returned attention in turn.  The
accumulator's outer `Option` tracks whether `attention` was ever bound. -/
def layersLoop {α κ γf γ : Type} (bOf : α → Nat) (fh : γf → γ) :
    List (DecLayer α κ γf) → List α → Option Mask → Option (List (List α)) →
    Option (List MemMask) → Option (List (LayerCache κ)) →
    Option (Option (List γ)) →
    Except PyErr (List α × List (LayerCache κ) × Option (Option (List γ)))
  | [], xs, _, _, _, _, attn => .ok (xs, [], attn)
  | ly :: rest, xs, mask, memN, mm, cache, attn =>
    match cache with
    | some [] => .error PyErr.indexError
    | _ =>
      let c0 : Option (LayerCache κ) :=
        match cache with
        | some (c :: _) => some c
        | _ => none
      let ctail : Option (List (LayerCache κ)) :=
        match cache with
        | some (_ :: cs) => some cs
        | _ => none
      match ly.call bOf fh xs mask memN mm c0 with
      | .error e => .error e
      | .ok (ys, c, a) =>
        match layersLoop bOf fh rest ys mask memN mm ctail (some a) with
        | .error e => .error e
        | .ok (zs, cs, af) => .ok (zs, c :: cs, af)

/-- `SelfAttentionDecoder._run`: process inputs, build the query and memory
masks, run the layer stack, and apply the final layer normalization;
returns the outputs, the new stack cache, and the last layer's attention. -/
def SelfAttentionDecoder.runDecoder {α κ γf γ δ : Type}
    (D : SelfAttentionDecoder α κ γf γ δ) (inputs : List α)
    (sequenceLength : Option Nat) (cache : Option (List (LayerCache κ)))
    (memory : Option (MemoryArg (List α))) (msl : Option (MemoryArg Nat))
    (stepo : Option Nat) (training : Bool) :
    Except PyErr (List α × List (LayerCache κ) × Option (List γ)) :=
  let xs := processInputs D inputs stepo training
  let mask := selfAttnMask sequenceLength xs.length
  let memN := memory.map MemoryArg.norm
  match buildMemoryMask memN msl with
  | .error e => .error e
  | .ok mm =>
    match layersLoop D.batchOf D.firstHead D.layers xs mask memN mm cache none with
    | .error e => .error e
    | .ok (ys, cs, attnAcc) =>
      match attnAcc with
      | none => .error PyErr.nameErrorAttention
      | some attn => .ok (ys.map D.layerNorm, cs, attn)

/-- `SelfAttentionDecoder.forward`: ignores `initial_state` and `input_fn`,
rejects a non-null `sampling_probability`, runs the shared core (no cache,
no step), and projects the outputs to logits. -/
def SelfAttentionDecoder.forward {α κ γf γ δ σ φ ρ : Type}
    (D : SelfAttentionDecoder α κ γf γ δ) (inputs : List α)
    (sequenceLength : Option Nat) (initialState : Option σ)
    (memory : Option (MemoryArg (List α))) (msl : Option (MemoryArg Nat))
    (inputFn : Option φ) (samplingProbability : Option ρ) (training : Bool) :
    Except PyErr (List δ × List (LayerCache κ) × Option (List γ)) :=
  let _ := initialState
  let _ := inputFn
  match samplingProbability with
  | some _ => .error PyErr.valueErrorScheduledSampling
  | none =>
    match D.runDecoder inputs sequenceLength none memory msl none training with
    | .error e => .error e
    | .ok (outs, state, attn) => .ok (outs.map D.outputLayer, state, attn)

/-- `tf.squeeze(x, axis=1)` on a time-major list: succeeds iff the axis has
extent exactly 1. -/
def squeeze1 {β : Type} : List β → Except PyErr β
  | [x] => .ok x
  | _ => .error PyErr.squeezeError

/-- `SelfAttentionDecoder.step`: expand the single-timestep input to a
length-1 sequence, run the shared core with the cache and
`step = timestep`, then squeeze the outputs (and the attention when
present) back. -/
def SelfAttentionDecoder.step {α κ γf γ δ : Type}
    (D : SelfAttentionDecoder α κ γf γ δ) (inputs : α) (timestep : Nat)
    (state : Option (List (LayerCache κ))) (memory : Option (MemoryArg (List α)))
    (msl : Option (MemoryArg Nat)) (training : Bool) :
    Except PyErr (α × List (LayerCache κ) × Option γ) :=
  match D.runDecoder [inputs] none state memory msl (some timestep) training with
  | .error e => .error e
  | .ok (outs, state2, attn) =>
    match squeeze1 outs with
    | .error e => .error e
    | .ok o =>
      match attn with
      | none => .ok (o, state2, none)
      | some ws =>
        match squeeze1 ws with
        | .error e => .error e
        | .ok g => .ok (o, state2, some g)

/-- `SelfAttentionDecoder._get_initial_state`: one cache entry per layer,
each with zero-time `self_kv` key/value tensors of shape
`[batch_size, num_heads, 0, num_units // num_heads]` and `num_sources`
zero-time `memory_kv` pairs of the same shape; `dtype` fixes the element
dtype of the `tf.zeros` calls (a zero-time tensor holds no elements). -/
def SelfAttentionDecoder.getInitialState {α κ γf γ δ DT σ : Type}
    (D : SelfAttentionDecoder α κ γf γ δ) (batchSize : Nat) (dtype : DT)
    (initialState : Option σ) : List (LayerCache κ) :=
  let _ := dtype
  let _ := initialState
  D.layers.map fun _ =>
    ⟨AttnCache.zeros κ batchSize D.numHeads (D.numUnits / D.numHeads),
     List.replicate D.numSources
       (AttnCache.zeros κ batchSize D.numHeads (D.numUnits / D.numHeads))⟩

/-- An incremental decoding loop: call `step` on each input in turn with
timesteps `t, t+1, ...`, threading the returned state, and collect the
per-timestep outputs and attentions. -/
def iterSteps {α κ γf γ δ : Type} (D : SelfAttentionDecoder α κ γf γ δ)
    (memory : Option (MemoryArg (List α))) (msl : Option (MemoryArg Nat))
    (training : Bool) :
    List α → Nat → List (LayerCache κ) →
    Except PyErr (List (α × Option γ) × List (LayerCache κ))
  | [], _, s => .ok ([], s)
  | x :: xs, t, s =>
    match D.step x t (some s) memory msl training with
    | .error e => .error e
    | .ok (o, s2, a) =>
      match iterSteps D memory msl training xs (t + 1) s2 with
      | .error e => .error e
      | .ok (rest, sf) => .ok ((o, a) :: rest, sf)

/-! ### List-level helper lemmas -/

theorem zipTakeComm {a b : Type} (l1 : List a) (l2 : List b) (n : Nat) :
    (l1.take n).zip (l2.take n) = (l1.zip l2).take n := by
  simp [List.zip, List.take_zipWith]

theorem getq_zipWith {a b c : Type} (f : a → b → c) (l1 : List a) (l2 : List b)
    (t : Nat) (x : a) (y : b) (hx : l1[t]? = some x) (hy : l2[t]? = some y) :
    (List.zipWith f l1 l2)[t]? = some (f x y) := by
  rw [List.getElem?_zipWith', hx, hy]; rfl

theorem posIndexed_getElem {α : Type} (pe : Nat → α → α) (l : List α) :
    ∀ p t, (posIndexed pe p l)[t]? = l[t]?.map (pe (p + t)) := by
  induction l with
  | nil => intro p t; simp [posIndexed]
  | cons x xs ih =>
    intro p t
    cases t with
    | zero => simp [posIndexed]
    | succ t =>
      simp only [posIndexed, List.getElem?_cons_succ, ih (p + 1) t]
      have : p + 1 + t = p + (t + 1) := by omega
      rw [this]

theorem posIndexed_length {α : Type} (pe : Nat → α → α) (l : List α) :
    ∀ p, (posIndexed pe p l).length = l.length := by
  induction l with
  | nil => intro p; rfl
  | cons x xs ih => intro p; simp [posIndexed, ih]

theorem mhaSelfGo_length {α κ : Type} (attendF : α → List (κ × κ) → α)
    (mask : Option Mask) (allKV : List (κ × κ)) (qs : List α) :
    ∀ p, (mhaSelfGo attendF mask allKV p qs).length = qs.length := by
  induction qs with
  | nil => intro p; rfl
  | cons q qs ih => intro p; simp [mhaSelfGo, ih]

theorem mhaSelfGo_getElem {α κ : Type} (attendF : α → List (κ × κ) → α)
    (mask : Option Mask) (allKV : List (κ × κ)) (qs : List α) :
    ∀ p t, (mhaSelfGo attendF mask allKV p qs)[t]? =
      qs[t]?.map fun q => attendF q (visibleKVs mask (p + t) allKV) := by
  induction qs with
  | nil => intro p t; simp [mhaSelfGo]
  | cons q qs ih =>
    intro p t
    cases t with
    | zero => simp [mhaSelfGo]
    | succ t =>
      simp only [mhaSelfGo, List.getElem?_cons_succ, ih (p + 1) t]
      have : p + 1 + t = p + (t + 1) := by omega
      rw [this]

theorem maskFilter_causal {κ : Type} (L M p : Nat) (hpL : p < L) :
    ∀ (kvs : List (κ × κ)) (j : Nat),
      maskFilter ⟨L, M⟩ p j kvs = kvs.take (p + 1 - j) := by
  intro kvs
  induction kvs with
  | nil => intro j; simp [maskFilter]
  | cons kv rest ih =>
    intro j
    by_cases hj : j ≤ p
    · have hallow : Mask.allows ⟨L, M⟩ p j = true := by
        simp [Mask.allows]; omega
      have hsub : p + 1 - j = (p - j) + 1 := by omega
      have hsub2 : p + 1 - (j + 1) = p - j := by omega
      simp only [maskFilter, hallow, if_true, ih (j + 1), hsub, hsub2, List.take_succ_cons]
    · have hallow : Mask.allows ⟨L, M⟩ p j = false := by
        simp [Mask.allows]; omega
      have hsub : p + 1 - j = 0 := by omega
      have hsub2 : p + 1 - (j + 1) = 0 := by omega
      simp [maskFilter, hallow, ih (j + 1), hsub, hsub2]

theorem visibleKVs_none {κ : Type} (p : Nat) (kvs : List (κ × κ)) :
    visibleKVs none p kvs = kvs := rfl

theorem visibleKVs_causal {κ : Type} (L M p : Nat) (hpL : p < L)
    (kvs : List (κ × κ)) :
    visibleKVs (some ⟨L, M⟩) p kvs = kvs.take (p + 1) := by
  simp [visibleKVs, maskFilter_causal L M p hpL kvs 0]

/-! ### Row-level characterization of input processing -/

/-- Per-timestep input processing at absolute timestep `t` (zero-based): the
scaled slice, position-encoded at position `t + 1` when an encoder is
configured, then dropout. -/
def procSlice {α κ γf γ δ : Type} (D : SelfAttentionDecoder α κ γf γ δ)
    (t : Nat) (training : Bool) (x : α) : α :=
  dropoutModel D.drop training
    (match D.posEnc with
     | none => D.scale x
     | some pe => pe (t + 1) (D.scale x))

theorem processInputs_length {α κ γf γ δ : Type} (D : SelfAttentionDecoder α κ γf γ δ)
    (inputs : List α) (stepo : Option Nat) (training : Bool) :
    (processInputs D inputs stepo training).length = inputs.length := by
  unfold processInputs
  cases D.posEnc with
  | none => simp
  | some pe =>
    cases stepo with
    | none => simp [posIndexed_length]
    | some t => simp

theorem processInputs_full_getElem {α κ γf γ δ : Type}
    (D : SelfAttentionDecoder α κ γf γ δ) (inputs : List α) (training : Bool)
    (t : Nat) :
    (processInputs D inputs none training)[t]? =
      inputs[t]?.map (procSlice D t training) := by
  cases h : D.posEnc with
  | none =>
    simp only [processInputs, h]
    cases hx : inputs[t]? <;> simp [hx, List.getElem?_map, procSlice, h]
  | some pe =>
    simp only [processInputs, h, List.getElem?_map,
      posIndexed_getElem pe (inputs.map D.scale) 1 t]
    cases inputs[t]? with
    | none => rfl
    | some x =>
      have h2 : 1 + t = t + 1 := by omega
      simp [procSlice, h, h2]

theorem processInputs_single {α κ γf γ δ : Type}
    (D : SelfAttentionDecoder α κ γf γ δ) (x : α) (t : Nat) (training : Bool) :
    processInputs D [x] (some t) training = [procSlice D t training x] := by
  cases h : D.posEnc <;> simp [processInputs, procSlice, h]

/-! ### Memory-attention cache resolution -/

theorem resolve_none {α κ γf : Type} (bOf : α → Nat) (heads headDim : Nat)
    (cw : CrossAttnLayer α κ γf) (mem : List α) :
    resolveMemKV bOf heads headDim cw mem none = projMem bOf heads headDim cw mem := rfl

theorem resolve_zeros {α κ γf : Type} (bOf : α → Nat) (heads headDim : Nat)
    (cw : CrossAttnLayer α κ γf) (mem : List α) (b h2 d2 : Nat) :
    resolveMemKV bOf heads headDim cw mem (some (AttnCache.zeros κ b h2 d2)) =
      projMem bOf heads headDim cw mem := rfl

theorem resolve_projMem {α κ γf : Type} (bOf : α → Nat) (heads headDim : Nat)
    (cw : CrossAttnLayer α κ γf) (mem : List α) :
    resolveMemKV bOf heads headDim cw mem (some (projMem bOf heads headDim cw mem)) =
      projMem bOf heads headDim cw mem := by
  cases mem <;> simp [resolveMemKV, projMem]

/-- Relation between the zipped (sublayer, memory, mask) lists and a supplied
per-source cache list: the cache list supplies one entry per consumed zip
position, and each entry resolves to the freshly computed memory projections
(as a `None`, a zero-time pair, or the projections themselves). -/
inductive DRel {α κ γf : Type} (bOf : α → Nat) (heads headDim : Nat) :
    List (CrossAttnLayer α κ γf) → List (List α) → List MemMask →
    List (Option (AttnCache κ)) → Prop
  | stop (a : List (CrossAttnLayer α κ γf)) (b : List (List α)) (c : List MemMask)
      (d : List (Option (AttnCache κ))) (h : a = [] ∨ b = [] ∨ c = []) :
      DRel bOf heads headDim a b c d
  | cons (cw : CrossAttnLayer α κ γf) (a : List (CrossAttnLayer α κ γf))
      (mem : List α) (b : List (List α)) (mk : MemMask) (c : List MemMask)
      (mc : Option (AttnCache κ)) (d : List (Option (AttnCache κ)))
      (hres : resolveMemKV bOf heads headDim cw mem mc = projMem bOf heads headDim cw mem)
      (hrest : DRel bOf heads headDim a b c d) :
      DRel bOf heads headDim (cw :: a) (mem :: b) (mk :: c) (mc :: d)

theorem DRel_inv_cons {α κ γf : Type} {bOf : α → Nat} {heads headDim : Nat}
    {cw : CrossAttnLayer α κ γf} {a : List (CrossAttnLayer α κ γf)}
    {mem : List α} {b : List (List α)} {mk : MemMask} {c : List MemMask}
    {d : List (Option (AttnCache κ))}
    (h : DRel bOf heads headDim (cw :: a) (mem :: b) (mk :: c) d) :
    ∃ mc d2, d = mc :: d2 ∧
      resolveMemKV bOf heads headDim cw mem mc = projMem bOf heads headDim cw mem ∧
      DRel bOf heads headDim a b c d2 := by
  cases h with
  | stop _ _ _ _ h => rcases h with h | h | h <;> simp at h
  | cons _ _ _ _ _ _ mc d2 hres hrest => exact ⟨mc, d2, rfl, hres, hrest⟩

theorem DRel_univ {α κ γf : Type} (bOf : α → Nat) (heads headDim : Nat) :
    ∀ (a : List (CrossAttnLayer α κ γf)) (b : List (List α)) (c : List MemMask)
      (d : List (Option (AttnCache κ)))
      (hu : ∀ mc ∈ d, ∀ (cw : CrossAttnLayer α κ γf) (mem : List α),
        resolveMemKV bOf heads headDim cw mem mc = projMem bOf heads headDim cw mem)
      (hlen : a.length ≤ d.length),
      DRel bOf heads headDim a b c d := by
  intro a
  induction a with
  | nil => intro b c d _ _; exact .stop _ _ _ _ (Or.inl rfl)
  | cons cw a ih =>
    intro b c d hu hlen
    cases b with
    | nil => exact .stop _ _ _ _ (Or.inr (Or.inl rfl))
    | cons mem b =>
      cases c with
      | nil => exact .stop _ _ _ _ (Or.inr (Or.inr rfl))
      | cons mk c =>
        cases d with
        | nil => simp at hlen
        | cons mc d =>
          refine .cons _ _ _ _ _ _ _ _ (hu mc (by simp) cw mem) ?_
          refine ih b c d (fun x hx cw2 mem2 => hu x (by simp [hx]) cw2 mem2) ?_
          simpa using Nat.le_of_succ_le_succ (by simpa using hlen)

/-- The canonical per-source memory key/value list computed by one pass over
the zipped sources. -/
def crossKVs {α κ γf : Type} (bOf : α → Nat) (heads headDim : Nat) :
    List (CrossAttnLayer α κ γf) → List (List α) → List MemMask → List (AttnCache κ)
  | cw :: a, mem :: b, _ :: c => projMem bOf heads headDim cw mem :: crossKVs bOf heads headDim a b c
  | _, _, _ => []

theorem DRel_crossKVs {α κ γf : Type} (bOf : α → Nat) (heads headDim : Nat) :
    ∀ (a : List (CrossAttnLayer α κ γf)) (b : List (List α)) (c : List MemMask),
      DRel bOf heads headDim a b c ((crossKVs bOf heads headDim a b c).map some) := by
  intro a
  induction a with
  | nil => intro b c; exact .stop _ _ _ _ (Or.inl rfl)
  | cons cw a ih =>
    intro b c
    cases b with
    | nil => exact .stop _ _ _ _ (Or.inr (Or.inl rfl))
    | cons mem b =>
      cases c with
      | nil => exact .stop _ _ _ _ (Or.inr (Or.inr rfl))
      | cons mk c =>
        simp only [crossKVs, List.map_cons]
        exact .cons _ _ _ _ _ _ _ _ (resolve_projMem bOf heads headDim cw mem) (ih b c)

/-- Correspondence between a full-sequence attention accumulator and its
single-timestep counterpart: both are unset, or the full one is a list with
one entry per query position and the incremental one is the singleton at
position `t`. -/
def AttRel {γ : Type} (T t : Nat) (A1 A2 : Option (List γ)) : Prop :=
  match A1 with
  | none => A2 = none
  | some l => l.length = T ∧ ∃ g, l[t]? = some g ∧ A2 = some [g]

theorem crossWrapped_eval {α κ γf : Type} (bOf : α → Nat) (heads headDim : Nat)
    (cw : CrossAttnLayer α κ γf) (mem : List α) (mk : MemMask)
    (mc : Option (AttnCache κ)) (QS : List α)
    (hres : resolveMemKV bOf heads headDim cw mem mc = projMem bOf heads headDim cw mem) :
    crossWrapped bOf heads headDim cw mem (some mk) mc QS =
      (List.zipWith cw.combine QS (QS.map fun x =>
         cw.attend (cw.normIn x) (mem.map cw.projK) (mem.map cw.projV) (some mk)),
       projMem bOf heads headDim cw mem,
       if cw.retAttn then
         some (QS.map fun x =>
           cw.weights (cw.normIn x) (mem.map cw.projK) (mem.map cw.projV) (some mk))
       else none) := by
  simp [crossWrapped, mhaCross, hres, projMem, List.map_map, Function.comp_def]

theorem crossLoopPar {α κ γf γ : Type} (bOf : α → Nat) (fh : γf → γ)
    (heads headDim : Nat) (t : Nat) :
    ∀ (a : List (CrossAttnLayer α κ γf)) (b : List (List α)) (c : List MemMask)
      (d1 d2 : List (Option (AttnCache κ))) (QS : List α) (q : α)
      (A1 A2 : Option (List γ)),
      DRel bOf heads headDim a b c d1 → DRel bOf heads headDim a b c d2 →
      QS[t]? = some q → AttRel QS.length t A1 A2 →
      ∃ F1 K1 W1 y K2 W2,
        crossLoop bOf fh heads headDim (zip4 a b c d1) QS A1 = (F1, K1, W1) ∧
        crossLoop bOf fh heads headDim (zip4 a b c d2) [q] A2 = ([y], K2, W2) ∧
        F1.length = QS.length ∧ F1[t]? = some y ∧
        K1 = crossKVs bOf heads headDim a b c ∧
        K2 = crossKVs bOf heads headDim a b c ∧
        AttRel QS.length t W1 W2 := by
  intro a
  induction a with
  | nil =>
    intro b c d1 d2 QS q A1 A2 _ _ hq hA
    exact ⟨QS, [], A1, q, [], A2, rfl, rfl, rfl, hq, rfl, rfl, hA⟩
  | cons cw a ih =>
    intro b c d1 d2 QS q A1 A2 h1 h2 hq hA
    cases b with
    | nil =>
      exact ⟨QS, [], A1, q, [], A2, rfl, rfl, rfl, hq, rfl, rfl, hA⟩
    | cons mem b =>
      cases c with
      | nil =>
        exact ⟨QS, [], A1, q, [], A2, rfl, rfl, rfl, hq, rfl, rfl, hA⟩
      | cons mk c =>
        obtain ⟨mc1, d1t, rfl, hres1, hd1⟩ := DRel_inv_cons h1
        obtain ⟨mc2, d2t, rfl, hres2, hd2⟩ := DRel_inv_cons h2
        set f := fun x =>
          cw.attend (cw.normIn x) (mem.map cw.projK) (mem.map cw.projV) (some mk) with hf
        set wf := fun x =>
          cw.weights (cw.normIn x) (mem.map cw.projK) (mem.map cw.projV) (some mk) with hwf
        have hq2 : (List.zipWith cw.combine QS (QS.map f))[t]? =
            some (cw.combine q (f q)) :=
          getq_zipWith cw.combine QS (QS.map f) t q (f q) hq
            (by rw [List.getElem?_map, hq]; rfl)
        have hlen2 : (List.zipWith cw.combine QS (QS.map f)).length = QS.length := by
          simp [List.length_zipWith]
        have hA2 : AttRel (List.zipWith cw.combine QS (QS.map f)).length t
            (match (if cw.retAttn then some (QS.map wf) else none) with
             | some ws => some (ws.map fh)
             | none => A1)
            (match (if cw.retAttn then some ([q].map wf) else none) with
             | some ws => some (ws.map fh)
             | none => A2) := by
          rw [hlen2]
          cases hr : cw.retAttn with
          | false => simpa using hA
          | true =>
            simp only [if_true]
            refine ⟨by simp, fh (wf q), ?_, by simp⟩
            rw [List.getElem?_map, List.getElem?_map, hq]
            rfl
        obtain ⟨F1, K1, W1, y, K2, W2, e1, e2, elen, erow, ek1, ek2, eA⟩ :=
          ih b c d1t d2t (List.zipWith cw.combine QS (QS.map f))
            (cw.combine q (f q)) _ _ hd1 hd2 hq2 hA2
        refine ⟨F1, projMem bOf heads headDim cw mem :: K1, W1, y,
          projMem bOf heads headDim cw mem :: K2, W2, ?_, ?_, ?_, erow, ?_, ?_, ?_⟩
        · simp only [zip4, crossLoop, crossWrapped_eval bOf heads headDim cw mem mk mc1 QS hres1]
          rw [e1]
        · have hsingle : crossWrapped bOf heads headDim cw mem (some mk) mc2 [q] =
              ([cw.combine q (f q)], projMem bOf heads headDim cw mem,
               if cw.retAttn then some ([q].map wf) else none) := by
            rw [crossWrapped_eval bOf heads headDim cw mem mk mc2 [q] hres2]
            rfl
          simp only [zip4, crossLoop, hsingle]
          rw [e2]
        · rw [elen, hlen2]
        · simp only [crossKVs, ek1]
        · simp only [crossKVs, ek2]
        · rw [← hlen2]; exact eA

/-! ### Per-layer correspondence between full-sequence and incremental calls -/

/-- Key projections of the (normalized) full-sequence layer inputs, i.e. the
complete self-attention key history of one layer over a whole sequence. -/
def selfKeysAll {α κ γf : Type} (ly : DecLayer α κ γf) (ZS : List α) : List κ :=
  ZS.map fun z => ly.selfProjK (ly.selfNorm z)

/-- Value projections of the (normalized) full-sequence layer inputs. -/
def selfValsAll {α κ γf : Type} (ly : DecLayer α κ γf) (ZS : List α) : List κ :=
  ZS.map fun z => ly.selfProjV (ly.selfNorm z)

/-- Invariant tying an incremental layer cache after `t` steps to the
full-sequence run of the same layer: the `self_kv` histories are the first
`t` key/value projections of the full-sequence layer inputs, and the
`memory_kv` entries resolve to the per-source memory projections. -/
def CacheRel {α κ γf : Type} (bOf : α → Nat) (ly : DecLayer α κ γf) (ZS : List α)
    (memN : Option (List (List α))) (mm : Option (List MemMask)) (t : Nat)
    (c : LayerCache κ) : Prop :=
  c.self_kv.keys.slices = (selfKeysAll ly ZS).take t ∧
  c.self_kv.values.slices = (selfValsAll ly ZS).take t ∧
  (∀ mems masks, memN = some mems → mm = some masks →
    DRel bOf ly.heads (ly.units / ly.heads) ly.cross mems masks (c.memory_kv.map some)) ∧
  (0 < t → c.memory_kv =
    match memN, mm with
    | some mems, some masks =>
      crossKVs bOf ly.heads (ly.units / ly.heads) ly.cross mems masks
    | _, _ => [])

theorem ffnApply_length {α κ γf : Type} (ly : DecLayer α κ γf) (xs : List α) :
    (ffnApply ly xs).length = xs.length := by
  simp [ffnApply]

theorem ffnApply_getElem {α κ γf : Type} (ly : DecLayer α κ γf) (xs : List α)
    (t : Nat) (x : α) (hx : xs[t]? = some x) :
    (ffnApply ly xs)[t]? = some (ly.ffnCombine x (ly.ffn (ly.ffnNorm x))) := by
  simp [ffnApply, List.getElem?_map, hx]

theorem layerPar {α κ γf γ : Type} (bOf : α → Nat) (fh : γf → γ)
    (ly : DecLayer α κ γf) (ZS : List α)
    (memN : Option (List (List α))) (mm : Option (List MemMask))
    (hcm : ∀ mems, memN = some mems → ∃ masks, mm = some masks)
    (t : Nat) (z : α) (hz : ZS[t]? = some z)
    (c : LayerCache κ) (hrel : CacheRel bOf ly ZS memN mm t c) :
    ∃ YS C A, ly.call bOf fh ZS (some ⟨ZS.length, ZS.length⟩) memN mm none = .ok (YS, C, A) ∧
      YS.length = ZS.length ∧
      ∃ y c2 a2, ly.call bOf fh [z] none memN mm (some c) = .ok ([y], c2, a2) ∧
        YS[t]? = some y ∧ CacheRel bOf ly ZS memN mm (t + 1) c2 ∧
        AttRel ZS.length t A a2 := by
  have ht : t < ZS.length := by
    rcases List.getElem?_eq_some.mp hz with ⟨h, _⟩
    exact h
  obtain ⟨hKrel, hVrel, hMrel, _⟩ := hrel
  set K := selfKeysAll ly ZS with hK
  set V := selfValsAll ly ZS with hV
  have hKlen : K.length = ZS.length := by simp [hK, selfKeysAll]
  have hVlen : V.length = ZS.length := by simp [hV, selfValsAll]
  have hKt : K[t]? = some (ly.selfProjK (ly.selfNorm z)) := by
    simp [hK, selfKeysAll, List.getElem?_map, hz]
  have hVt : V[t]? = some (ly.selfProjV (ly.selfNorm z)) := by
    simp [hV, selfValsAll, List.getElem?_map, hz]
  have hK1 : K.take t ++ [ly.selfProjK (ly.selfNorm z)] = K.take (t + 1) := by
    rw [List.take_succ, hKt]; rfl
  have hV1 : V.take t ++ [ly.selfProjV (ly.selfNorm z)] = V.take (t + 1) := by
    rw [List.take_succ, hVt]; rfl
  have hlent : (K.take t).length = t := by
    rw [List.length_take]; omega
  -- the attended value shared by the two modes at position t
  set y0 := ly.selfCombine z (ly.selfAttend (ly.selfNorm z) ((K.zip V).take (t + 1)))
    with hy0
  -- full-sequence self-attention
  have hfullSelf : selfAttnWrapped bOf ly (some ⟨ZS.length, ZS.length⟩) none ZS =
      (List.zipWith ly.selfCombine ZS
        (mhaSelfGo ly.selfAttend (some ⟨ZS.length, ZS.length⟩) (K.zip V) 0
          (ZS.map ly.selfNorm)),
       ⟨⟨headBatch bOf (ZS.map ly.selfNorm), ly.heads, ly.units / ly.heads, K⟩,
        ⟨headBatch bOf (ZS.map ly.selfNorm), ly.heads, ly.units / ly.heads, V⟩⟩) := by
    simp [selfAttnWrapped, mhaSelf, AttnCache.zeros, hK, hV, selfKeysAll, selfValsAll,
      List.map_map, Function.comp_def]
  have hrow0 : (mhaSelfGo ly.selfAttend (some ⟨ZS.length, ZS.length⟩) (K.zip V) 0
      (ZS.map ly.selfNorm))[t]? =
      some (ly.selfAttend (ly.selfNorm z) ((K.zip V).take (t + 1))) := by
    rw [mhaSelfGo_getElem, List.getElem?_map, hz]
    simp only [Option.map_some, Nat.zero_add]
    rw [visibleKVs_causal ZS.length ZS.length t ht]
    rfl
  have hfullRow : (List.zipWith ly.selfCombine ZS
      (mhaSelfGo ly.selfAttend (some ⟨ZS.length, ZS.length⟩) (K.zip V) 0
        (ZS.map ly.selfNorm)))[t]? = some y0 :=
    getq_zipWith ly.selfCombine _ _ t z _ hz hrow0
  have hfullLen : (List.zipWith ly.selfCombine ZS
      (mhaSelfGo ly.selfAttend (some ⟨ZS.length, ZS.length⟩) (K.zip V) 0
        (ZS.map ly.selfNorm))).length = ZS.length := by
    simp [List.length_zipWith, mhaSelfGo_length]
  -- incremental self-attention
  have hincSelf : selfAttnWrapped bOf ly none (some c.self_kv) [z] =
      ([y0],
       ⟨⟨c.self_kv.keys.batch, c.self_kv.keys.heads, c.self_kv.keys.headDim, K.take (t + 1)⟩,
        ⟨c.self_kv.values.batch, c.self_kv.values.heads, c.self_kv.values.headDim,
         V.take (t + 1)⟩⟩) := by
    simp only [selfAttnWrapped, mhaSelf, List.map_cons, List.map_nil, Option.getD_some,
      Option.map_some]
    rw [hKrel, hVrel, hK1, hV1, hlent]
    simp only [mhaSelfGo, visibleKVs, List.zipWith_cons_cons, List.zipWith_nil_right,
      zipTakeComm, hy0]
  set FKV : AttnCache κ :=
    ⟨⟨headBatch bOf (ZS.map ly.selfNorm), ly.heads, ly.units / ly.heads, K⟩,
     ⟨headBatch bOf (ZS.map ly.selfNorm), ly.heads, ly.units / ly.heads, V⟩⟩ with hFKV
  set IKV : AttnCache κ :=
    ⟨⟨c.self_kv.keys.batch, c.self_kv.keys.heads, c.self_kv.keys.headDim, K.take (t + 1)⟩,
     ⟨c.self_kv.values.batch, c.self_kv.values.heads, c.self_kv.values.headDim,
      V.take (t + 1)⟩⟩ with hIKV
  cases memN with
  | none =>
    refine ⟨ffnApply ly (List.zipWith ly.selfCombine ZS
        (mhaSelfGo ly.selfAttend (some ⟨ZS.length, ZS.length⟩) (K.zip V) 0
          (ZS.map ly.selfNorm))), ⟨FKV, []⟩, none, ?_, ?_, ?_⟩
    · simp only [DecLayer.call, Option.map_none', hfullSelf]
    · rw [ffnApply_length, hfullLen]
    · refine ⟨ly.ffnCombine y0 (ly.ffn (ly.ffnNorm y0)), ⟨IKV, []⟩, none, ?_, ?_, ?_, ?_⟩
      · simp only [DecLayer.call, Option.map_some', hincSelf]
        rfl
      · exact ffnApply_getElem ly _ t y0 hfullRow
      · refine ⟨by simp [hIKV], by simp [hIKV], ?_, fun _ => rfl⟩
        intro mems masks hmem _
        exact absurd hmem (by simp)
      · simp [AttRel]
  | some mems =>
    obtain ⟨masks, rfl⟩ := hcm mems rfl
    have hd1 : DRel bOf ly.heads (ly.units / ly.heads) ly.cross mems masks
        (List.replicate ly.cross.length none) := by
      refine DRel_univ bOf ly.heads (ly.units / ly.heads) ly.cross mems masks _ ?_ ?_
      · intro mc hmc cw mem
        have : mc = none := List.eq_of_mem_replicate hmc
        rw [this]
        exact resolve_none bOf ly.heads (ly.units / ly.heads) cw mem
      · simp
    have hd2 : DRel bOf ly.heads (ly.units / ly.heads) ly.cross mems masks
        (c.memory_kv.map some) := hMrel mems masks rfl rfl
    obtain ⟨F1, K1, W1, y, K2, W2, e1, e2, elen, erow, ek1, ek2, eA⟩ :=
      crossLoopPar bOf fh ly.heads (ly.units / ly.heads) t ly.cross mems masks
        (List.replicate ly.cross.length none) (c.memory_kv.map some)
        (List.zipWith ly.selfCombine ZS
          (mhaSelfGo ly.selfAttend (some ⟨ZS.length, ZS.length⟩) (K.zip V) 0
            (ZS.map ly.selfNorm)))
        y0 none none hd1 hd2 hfullRow (by simp [AttRel])
    refine ⟨ffnApply ly F1, ⟨FKV, K1⟩, W1, ?_, ?_, ?_⟩
    · simp only [DecLayer.call, Option.map_none', hfullSelf, e1]
    · rw [ffnApply_length, elen, hfullLen]
    · refine ⟨ly.ffnCombine y (ly.ffn (ly.ffnNorm y)), ⟨IKV, K2⟩, W2, ?_, ?_, ?_, ?_⟩
      · simp only [DecLayer.call, Option.map_some', hincSelf, e2]
        rfl
      · exact ffnApply_getElem ly F1 t y erow
      · refine ⟨by simp [hIKV], by simp [hIKV], ?_, fun _ => ek2⟩
        intro mems2 masks2 hm1 hm2
        cases hm1; cases hm2
        simp only [ek2]
        exact DRel_crossKVs _ _ _ _ _ _
      · rw [hfullLen] at eA
        exact eA

/-! ### Stack-level correspondence -/

/-- Relation between the incremental per-layer caches after `t` steps and the
full-sequence run of the layer stack: each layer's cache satisfies `CacheRel`
against that layer's full-sequence inputs, whose full-sequence call succeeds
and feeds the next layer. -/
inductive StackRel {α κ γf γ : Type} (bOf : α → Nat) (fh : γf → γ)
    (memN : Option (List (List α))) (mm : Option (List MemMask)) :
    List (DecLayer α κ γf) → List α → Nat → List (LayerCache κ) → Prop
  | nil (ZS : List α) (t : Nat) : StackRel bOf fh memN mm [] ZS t []
  | cons (ly : DecLayer α κ γf) (rest : List (DecLayer α κ γf)) (ZS YS : List α)
      (C0 : LayerCache κ) (A0 : Option (List γ)) (t : Nat) (c : LayerCache κ)
      (cs : List (LayerCache κ))
      (hc : CacheRel bOf ly ZS memN mm t c)
      (hcall : ly.call bOf fh ZS (some ⟨ZS.length, ZS.length⟩) memN mm none =
        .ok (YS, C0, A0))
      (hlen : YS.length = ZS.length)
      (hrest : StackRel bOf fh memN mm rest YS t cs) :
      StackRel bOf fh memN mm (ly :: rest) ZS t (c :: cs)

/-- Correspondence between the `attention`-variable accumulators of the two
modes: both unbound, or both bound to `AttRel`-related values. -/
def AccRel {γ : Type} (T t : Nat) (F I : Option (Option (List γ))) : Prop :=
  match F with
  | none => I = none
  | some a => ∃ b, I = some b ∧ AttRel T t a b

theorem stackPar {α κ γf γ : Type} (bOf : α → Nat) (fh : γf → γ)
    (memN : Option (List (List α))) (mm : Option (List MemMask))
    (hcm : ∀ mems, memN = some mems → ∃ masks, mm = some masks) (t : Nat)
    (ls : List (DecLayer α κ γf)) (ZS : List α) (scs : List (LayerCache κ))
    (hsr : StackRel bOf fh memN mm ls ZS t scs) :
    ∀ (z : α) (attnF attnI : Option (Option (List γ))),
      ZS[t]? = some z → AccRel ZS.length t attnF attnI →
      ∃ OUT FCS AF,
        layersLoop bOf fh ls ZS (some ⟨ZS.length, ZS.length⟩) memN mm none attnF =
          .ok (OUT, FCS, AF) ∧
        OUT.length = ZS.length ∧
        ∃ o ics AI,
          layersLoop bOf fh ls [z] none memN mm (some scs) attnI = .ok ([o], ics, AI) ∧
          OUT[t]? = some o ∧ StackRel bOf fh memN mm ls ZS (t + 1) ics ∧
          AccRel ZS.length t AF AI := by
  induction hsr with
  | nil ZS t0 =>
    intro z attnF attnI hz hAcc
    exact ⟨ZS, [], attnF, rfl, rfl, z, [], attnI, rfl, hz, .nil ZS (t0 + 1), hAcc⟩
  | cons ly rest ZS YS C0 A0 t0 c cs hc hcall hlen hrest ih =>
    intro z attnF attnI hz hAcc
    obtain ⟨YS2, C2, A2, hfull2, hlen2, y, c2, a2, hinc2, hrow2, hcrel2, hatt2⟩ :=
      layerPar bOf fh ly ZS memN mm hcm t0 z hz c hc
    rw [hcall] at hfull2
    injection hfull2 with heq
    injection heq with h1 h23
    injection h23 with h2 h3
    subst h1; subst h2; subst h3
    have hy : YS[t0]? = some y := hrow2
    have hAcc2 : AccRel YS.length t0 (some A0) (some a2) := by
      refine ⟨a2, rfl, ?_⟩
      rw [hlen]
      exact hatt2
    obtain ⟨OUT, FCS, AF, hfullR, hlenR, o, ics, AI, hincR, hrowR, hsrR, hAccR⟩ :=
      ih y (some A0) (some a2) hy hAcc2
    have hmaskEq : (⟨YS.length, YS.length⟩ : Mask) = ⟨ZS.length, ZS.length⟩ := by
      rw [hlen]
    refine ⟨OUT, C0 :: FCS, AF, ?_, ?_, o, c2 :: ics, AI, ?_, hrowR, ?_, ?_⟩
    · simp only [layersLoop, hcall]
      rw [← hmaskEq, hfullR]
    · rw [hlenR, hlen]
    · simp only [layersLoop, hinc2]
      rw [hincR]
    · exact .cons ly rest ZS YS C0 A0 (t0 + 1) c2 ics hcrel2 hcall hlen hsrR
    · rw [← hlen]
      exact hAccR

/-! ### Length preservation and success inversions -/

theorem selfAttnWrapped_length {α κ γf : Type} (bOf : α → Nat) (ly : DecLayer α κ γf)
    (mask : Option Mask) (cache : Option (AttnCache κ)) (xs : List α) :
    (selfAttnWrapped bOf ly mask cache xs).1.length = xs.length := by
  simp [selfAttnWrapped, mhaSelf, List.length_zipWith, mhaSelfGo_length]

theorem crossLoop_length {α κ γf γ : Type} (bOf : α → Nat) (fh : γf → γ)
    (heads headDim : Nat) :
    ∀ (items : List (CrossAttnLayer α κ γf × List α × MemMask × Option (AttnCache κ)))
      (qs : List α) (attn : Option (List γ)),
      (crossLoop bOf fh heads headDim items qs attn).1.length = qs.length := by
  intro items
  induction items with
  | nil => intro qs attn; rfl
  | cons it rest ih =>
    obtain ⟨cw, mem, mk, mc⟩ := it
    intro qs attn
    simp only [crossLoop]
    rw [ih]
    simp [crossWrapped, mhaCross, List.length_zipWith]

theorem call_length {α κ γf γ : Type} (bOf : α → Nat) (fh : γf → γ)
    (ly : DecLayer α κ γf) (xs : List α) (mask : Option Mask)
    (memory : Option (List (List α))) (mm : Option (List MemMask))
    (cache : Option (LayerCache κ)) (YS : List α) (C : LayerCache κ)
    (A : Option (List γ))
    (h : ly.call bOf fh xs mask memory mm cache = .ok (YS, C, A)) :
    YS.length = xs.length := by
  unfold DecLayer.call at h
  cases memory with
  | none =>
    injection h with h2
    injection h2 with h3 h4
    rw [← h3, ffnApply_length, selfAttnWrapped_length]
  | some mems =>
    cases mm with
    | none => exact absurd h (by simp)
    | some masks =>
      injection h with h2
      injection h2 with h3 h4
      rw [← h3, ffnApply_length, crossLoop_length, selfAttnWrapped_length]

theorem layersLoop_cons_none_inv {α κ γf γ : Type} (bOf : α → Nat) (fh : γf → γ)
    (ly : DecLayer α κ γf) (rest : List (DecLayer α κ γf)) (xs : List α)
    (mask : Option Mask) (memN : Option (List (List α)))
    (mm : Option (List MemMask)) (attn : Option (Option (List γ)))
    (r : List α × List (LayerCache κ) × Option (Option (List γ)))
    (h : layersLoop bOf fh (ly :: rest) xs mask memN mm none attn = .ok r) :
    ∃ YS C A r2, ly.call bOf fh xs mask memN mm none = .ok (YS, C, A) ∧
      layersLoop bOf fh rest YS mask memN mm none (some A) = .ok r2 ∧
      r = (r2.1, C :: r2.2.1, r2.2.2) := by
  simp only [layersLoop] at h
  cases hcall : ly.call bOf fh xs mask memN mm none with
  | error e => rw [hcall] at h; exact absurd h (by simp)
  | ok v =>
    obtain ⟨YS, C, A⟩ := v
    rw [hcall] at h
    dsimp only at h
    cases hloop : layersLoop bOf fh rest YS mask memN mm none (some A) with
    | error e => rw [hloop] at h; exact absurd h (by simp)
    | ok r2 =>
      rw [hloop] at h
      dsimp only at h
      injection h with h2
      exact ⟨YS, C, A, r2, rfl, hloop, h2.symm⟩

theorem hcm_of_full_ok {α κ γf γ : Type} (bOf : α → Nat) (fh : γf → γ)
    (ly : DecLayer α κ γf) (rest : List (DecLayer α κ γf)) (xs : List α)
    (mask : Option Mask) (memN : Option (List (List α)))
    (mm : Option (List MemMask)) (attn : Option (Option (List γ)))
    (r : List α × List (LayerCache κ) × Option (Option (List γ)))
    (h : layersLoop bOf fh (ly :: rest) xs mask memN mm none attn = .ok r) :
    ∀ mems, memN = some mems → ∃ masks, mm = some masks := by
  intro mems hmem
  subst hmem
  cases mm with
  | some masks => exact ⟨masks, rfl⟩
  | none =>
    exfalso
    obtain ⟨YS, C, A, r2, hcall, _, _⟩ :=
      layersLoop_cons_none_inv bOf fh ly rest xs mask (some mems) none attn r h
    have : ly.call bOf fh xs mask (some mems) none none =
        .error PyErr.typeErrorZipNone := rfl
    rw [this] at hcall
    exact absurd hcall (by simp)

theorem stackInit {α κ γf γ : Type} (bOf : α → Nat) (fh : γf → γ)
    (memN : Option (List (List α))) (mmv : Option (List MemMask)) (S : Nat)
    (z0 : AttnCache κ) (hz0 : z0.keys.slices = [] ∧ z0.values.slices = []) :
    ∀ (ls : List (DecLayer α κ γf)) (ZS : List α)
      (attnF : Option (Option (List γ)))
      (r : List α × List (LayerCache κ) × Option (Option (List γ))),
      (∀ ly ∈ ls, ly.cross.length = S) →
      layersLoop bOf fh ls ZS (some ⟨ZS.length, ZS.length⟩) memN mmv none attnF = .ok r →
      StackRel bOf fh memN mmv ls ZS 0
        (ls.map fun _ => ⟨z0, List.replicate S z0⟩) := by
  intro ls
  induction ls with
  | nil => intro ZS attnF r _ _; exact .nil ZS 0
  | cons ly rest ih =>
    intro ZS attnF r hWF h
    obtain ⟨YS, C, A, r2, hcall, hloop, _⟩ :=
      layersLoop_cons_none_inv bOf fh ly rest ZS _ memN mmv attnF r h
    have hlen : YS.length = ZS.length :=
      call_length bOf fh ly ZS _ memN mmv none YS C A hcall
    have hmaskEq : (⟨ZS.length, ZS.length⟩ : Mask) = ⟨YS.length, YS.length⟩ := by
      rw [hlen]
    rw [hmaskEq] at hloop
    refine .cons ly rest ZS YS C A 0 _ _ ?_ hcall hlen
      (ih YS (some A) r2 (fun ly2 hly2 => hWF ly2 (by simp [hly2])) hloop)
    refine ⟨by simp [hz0.1], by simp [hz0.2], ?_, fun h => absurd h (by omega)⟩
    intro mems masks hm1 hm2
    refine DRel_univ bOf ly.heads (ly.units / ly.heads) ly.cross mems masks _ ?_ ?_
    · intro mc hmc cw mem
      have hmcz : mc = some z0 := by
        rcases List.mem_map.mp hmc with ⟨w, hw, hws⟩
        rw [← hws, List.eq_of_mem_replicate hw]
      rw [hmcz]
      obtain ⟨k1, k2⟩ := hz0
      simp [resolveMemKV, List.isEmpty_iff, k1]
    · rw [List.length_map, List.length_replicate]
      exact Nat.le_of_eq (hWF ly (by simp))

theorem runDecoder_inv {α κ γf γ δ : Type} (D : SelfAttentionDecoder α κ γf γ δ)
    (inputs : List α) (sl : Option Nat) (cache : Option (List (LayerCache κ)))
    (memory : Option (MemoryArg (List α))) (msl : Option (MemoryArg Nat))
    (stepo : Option Nat) (tr : Bool) (os : List α) (cs : List (LayerCache κ))
    (attn : Option (List γ))
    (h : D.runDecoder inputs sl cache memory msl stepo tr = .ok (os, cs, attn)) :
    ∃ mmv OUT,
      buildMemoryMask (memory.map MemoryArg.norm) msl = .ok mmv ∧
      layersLoop D.batchOf D.firstHead D.layers (processInputs D inputs stepo tr)
        (selfAttnMask sl (processInputs D inputs stepo tr).length)
        (memory.map MemoryArg.norm) mmv cache none = .ok (OUT, cs, some attn) ∧
      os = OUT.map D.layerNorm := by
  unfold SelfAttentionDecoder.runDecoder at h
  dsimp only at h
  cases hbm : buildMemoryMask (memory.map MemoryArg.norm) msl with
  | error e => rw [hbm] at h; exact absurd h (by simp)
  | ok mmv =>
    rw [hbm] at h
    dsimp only at h
    cases hll : layersLoop D.batchOf D.firstHead D.layers
        (processInputs D inputs stepo tr)
        (selfAttnMask sl (processInputs D inputs stepo tr).length)
        (memory.map MemoryArg.norm) mmv cache none with
    | error e => rw [hll] at h; exact absurd h (by simp)
    | ok r =>
      obtain ⟨OUT, cs2, acc⟩ := r
      rw [hll] at h
      dsimp only at h
      cases acc with
      | none => exact absurd h (by simp)
      | some attn2 =>
        injection h with h2
        injection h2 with ha hb
        injection hb with hc hd
        exact ⟨mmv, OUT, rfl, by rw [hll, hc, hd], ha.symm⟩

theorem iterChain {α κ γf γ δ : Type} (D : SelfAttentionDecoder α κ γf γ δ)
    (memory : Option (MemoryArg (List α))) (msl : Option (MemoryArg Nat))
    (inputs : List α) (mmv : Option (List MemMask)) (OUT : List α)
    (FCSf : List (LayerCache κ)) (attn : Option (List γ))
    (hbm : buildMemoryMask (memory.map MemoryArg.norm) msl = .ok mmv)
    (hcm : ∀ mems, (memory.map MemoryArg.norm) = some mems → ∃ masks, mmv = some masks)
    (hfull : layersLoop D.batchOf D.firstHead D.layers
      (processInputs D inputs none false)
      (some ⟨(processInputs D inputs none false).length,
             (processInputs D inputs none false).length⟩)
      (memory.map MemoryArg.norm) mmv none none = .ok (OUT, FCSf, some attn)) :
    ∀ (rest : List α) (t : Nat) (scs : List (LayerCache κ)),
      StackRel D.batchOf D.firstHead (memory.map MemoryArg.norm) mmv D.layers
        (processInputs D inputs none false) t scs →
      (∀ i, rest[i]? = inputs[t + i]?) →
      t + rest.length = inputs.length →
      ∃ res sfin, iterSteps D memory msl false rest t scs = .ok (res, sfin) ∧
        res.length = rest.length ∧
        StackRel D.batchOf D.firstHead (memory.map MemoryArg.norm) mmv D.layers
          (processInputs D inputs none false) (t + rest.length) sfin ∧
        ∀ i p, res[i]? = some p →
          OUT[t + i]?.map D.layerNorm = some p.1 ∧
          p.2 = attn.bind fun l => l[t + i]? := by
  intro rest
  induction rest with
  | nil =>
    intro t scs hsr _ _
    exact ⟨[], scs, rfl, rfl, by simpa using hsr, fun i p hp => by simp at hp⟩
  | cons x rs ih =>
    intro t scs hsr hrest hlent
    have hx : inputs[t]? = some x := by
      have := hrest 0
      simp at this
      rw [← this]
    have hz : (processInputs D inputs none false)[t]? =
        some (procSlice D t false x) := by
      rw [processInputs_full_getElem, hx]
      rfl
    obtain ⟨OUT2, FCS2, AF, hfull2, hlenOUT, o, ics, AI, hinc, hrow, hsr2, hAcc⟩ :=
      stackPar D.batchOf D.firstHead (memory.map MemoryArg.norm) mmv hcm t D.layers
        (processInputs D inputs none false) scs hsr (procSlice D t false x)
        none none hz rfl
    rw [hfull] at hfull2
    injection hfull2 with heq
    injection heq with h1 h23
    injection h23 with h2 h3
    subst h1; subst h2
    obtain ⟨b, hAI, hAtt⟩ : ∃ b, AI = some b ∧
        AttRel (processInputs D inputs none false).length t attn b := by
      rw [← h3] at hAcc
      exact hAcc
    subst hAI
    have hrd : D.runDecoder [x] none (some scs) memory msl (some t) false =
        .ok ([D.layerNorm o], ics, b) := by
      unfold SelfAttentionDecoder.runDecoder
      rw [processInputs_single D x t false]
      dsimp only
      simp only [selfAttnMask, Option.map_none']
      rw [hbm]
      dsimp only
      rw [hinc]
      rfl
    have hstep : D.step x t (some scs) memory msl false =
        .ok (D.layerNorm o, ics, attn.bind fun l => l[t]?) := by
      unfold SelfAttentionDecoder.step
      rw [hrd]
      dsimp only
      cases attn with
      | none =>
        have hb : b = none := hAtt
        rw [hb]
        rfl
      | some l =>
        obtain ⟨_, g, hg, hbeq⟩ := hAtt
        rw [hbeq]
        simp only [squeeze1, Option.bind, hg]
    have hrest2 : ∀ i, rs[i]? = inputs[t + 1 + i]? := by
      intro i
      have := hrest (i + 1)
      simp only [List.getElem?_cons_succ] at this
      rw [this]
      congr 1
      omega
    obtain ⟨res2, sfin, hiter2, hlen2, hsrf, hcorr⟩ :=
      ih (t + 1) ics hsr2 hrest2 (by simp at hlent ⊢; omega)
    refine ⟨(D.layerNorm o, attn.bind fun l => l[t]?) :: res2, sfin, ?_, by simp [hlen2],
      ?_, ?_⟩
    · simp only [iterSteps, hstep, hiter2]
    · have harith : t + 1 + rs.length = t + (x :: rs).length := by simp; omega
      rw [← harith]
      exact hsrf
    · intro i p hp
      cases i with
      | zero =>
        simp only [List.getElem?_cons_zero] at hp
        injection hp with hpe
        subst hpe
        constructor
        · rw [Nat.add_zero, hrow]
          rfl
        · rw [Nat.add_zero]
      | succ i =>
        simp only [List.getElem?_cons_succ] at hp
        have := hcorr i p hp
        have harith : t + 1 + i = t + (i + 1) := by omega
        rw [harith] at this
        exact this

/-- C1: for any well-formed decoder, input sequence of any length `T ≥ 0` and
any fixed memory sources, if `forward` succeeds over the full sequence with a
causal mask (`sequence_length = T`), then calling `step` `T` times with
timesteps `0..T-1` from an initial state, threading the returned state,
succeeds and produces at each timestep `t` an output whose projection equals
the logits at position `t` and an attention equal to the attention at
position `t` of the `forward` call. -/
theorem forward_step_equiv {α κ γf γ δ DT : Type}
    (D : SelfAttentionDecoder α κ γf γ δ) (hWF : D.wellFormed)
    (inputs : List α) (memory : Option (MemoryArg (List α)))
    (msl : Option (MemoryArg Nat)) (B : Nat) (dtype : DT)
    (lg : List δ) (st : List (LayerCache κ)) (fat : Option (List γ))
    (hok : D.forward inputs (some inputs.length) (none : Option Unit) memory msl
      (none : Option Unit) (none : Option Unit) false = .ok (lg, st, fat)) :
    ∃ res sfin,
      iterSteps D memory msl false inputs 0
        (D.getInitialState B dtype (none : Option Unit)) = .ok (res, sfin) ∧
      res.length = inputs.length ∧
      ∀ (t : Nat) (p : α × Option γ), res[t]? = some p →
        lg[t]? = some (D.outputLayer p.1) ∧ p.2 = fat.bind fun l => l[t]? := by
  obtain ⟨os, hrun, hlg⟩ : ∃ os,
      D.runDecoder inputs (some inputs.length) none memory msl none false =
        .ok (os, st, fat) ∧ lg = os.map D.outputLayer := by
    unfold SelfAttentionDecoder.forward at hok
    dsimp only at hok
    cases hr : D.runDecoder inputs (some inputs.length) none memory msl none false with
    | error e => rw [hr] at hok; exact absurd hok (by simp)
    | ok r =>
      obtain ⟨os, st2, at2⟩ := r
      rw [hr] at hok
      dsimp only at hok
      injection hok with h2
      injection h2 with ha hb
      injection hb with hc hd
      subst hc; subst hd
      exact ⟨os, rfl, ha.symm⟩
  obtain ⟨mmv, OUT, hbm, hll, hos⟩ :=
    runDecoder_inv D inputs (some inputs.length) none memory msl none false os st fat hrun
  have hZlen : (processInputs D inputs none false).length = inputs.length :=
    processInputs_length D inputs none false
  have hmask : selfAttnMask (some inputs.length) (processInputs D inputs none false).length =
      some ⟨(processInputs D inputs none false).length,
            (processInputs D inputs none false).length⟩ := by
    simp [selfAttnMask, hZlen]
  rw [hmask] at hll
  have hcm : ∀ mems, (memory.map MemoryArg.norm) = some mems → ∃ masks, mmv = some masks := by
    cases hls : D.layers with
    | nil => rw [hls] at hll; exact absurd hll (by simp [layersLoop])
    | cons ly restl =>
      rw [hls] at hll
      exact hcm_of_full_ok D.batchOf D.firstHead ly restl _ _ _ mmv none _ hll
  have hWFlen : ∀ ly ∈ D.layers, ly.cross.length = D.numSources :=
    fun ly hly => (hWF ly hly).2.2.1
  have hsr0 : StackRel D.batchOf D.firstHead (memory.map MemoryArg.norm) mmv D.layers
      (processInputs D inputs none false) 0
      (D.layers.map fun _ =>
        ⟨AttnCache.zeros κ B D.numHeads (D.numUnits / D.numHeads),
         List.replicate D.numSources
           (AttnCache.zeros κ B D.numHeads (D.numUnits / D.numHeads))⟩) :=
    stackInit D.batchOf D.firstHead _ mmv D.numSources _ ⟨rfl, rfl⟩ D.layers
      (processInputs D inputs none false) none _ hWFlen hll
  obtain ⟨res, sfin, hiter, hlen, _, hcorr⟩ :=
    iterChain D memory msl inputs mmv OUT st fat hbm hcm hll inputs 0
      (D.layers.map fun _ =>
        ⟨AttnCache.zeros κ B D.numHeads (D.numUnits / D.numHeads),
         List.replicate D.numSources
           (AttnCache.zeros κ B D.numHeads (D.numUnits / D.numHeads))⟩)
      hsr0 (fun i => by rw [Nat.zero_add]) (by omega)
  refine ⟨res, sfin, hiter, hlen, ?_⟩
  intro t p hp
  obtain ⟨h1, h2⟩ := hcorr t p hp
  rw [Nat.zero_add] at h1 h2
  refine ⟨?_, h2⟩
  rw [hlg, hos]
  rw [List.map_map, List.getElem?_map]
  cases hu : OUT[t]? with
  | none => rw [hu] at h1; exact absurd h1 (by simp)
  | some u =>
    rw [hu] at h1
    injection h1 with h1e
    simp [Function.comp, h1e]

/-! ### Concrete instantiation used by the witnesses and counterexamples -/

/-- A concrete memory-attention sublayer over integer slices. -/
def cw0 : CrossAttnLayer Int Int Int :=
  { normIn := fun x => x + 1
    combine := fun x y => x + 2 * y
    projK := fun x => x * 3
    projV := fun x => x * 5
    attend := fun q ks vs mk =>
      q + ks.sum + 2 * vs.sum + (match mk with | none => 0 | some m => (m.len : Int))
    weights := fun q ks vs _ => q * 100 + ks.sum + vs.sum
    retAttn := true }

/-- A concrete decoder layer over integer slices (its `cross` list is
replaced by `SelfAttentionDecoder.init`). -/
def ly0 : DecLayer Int Int Int :=
  { units := 8
    heads := 2
    selfNorm := fun x => x - 1
    selfCombine := fun x y => x + y
    selfProjK := fun x => 2 * x
    selfProjV := fun x => x + 7
    selfAttend := fun q kvs => q + (kvs.map fun p => p.1 + p.2).sum
    cross := []
    ffnNorm := fun x => x + 3
    ffnCombine := fun x y => x + y
    ffn := fun x => 2 * x }

/-- A concrete decoder: 2 layers, 8 units, 2 heads, 1 memory source. -/
def D0 : SelfAttentionDecoder Int Int Int Int Int :=
  SelfAttentionDecoder.init 2 8 2 1 (fun x => 2 * x) (some fun p x => x + p) id id
    (fun x => x * 10) (fun _ => 4) (fun g => g + 1) (fun _ => ly0) (fun _ _ => cw0)

/-- A concrete decoder configured with 2 memory sources. -/
def D2src : SelfAttentionDecoder Int Int Int Int Int :=
  SelfAttentionDecoder.init 1 8 2 2 (fun x => 2 * x) (some fun p x => x + p) id id
    (fun x => x * 10) (fun _ => 4) (fun g => g + 1) (fun _ => ly0) (fun _ _ => cw0)

/-- One concrete memory source of length 3. -/
def mem0 : Option (MemoryArg (List Int)) := some (.one [1, 2, 3])

/-- One concrete memory length vector. -/
def msl0 : Option (MemoryArg Nat) := some (.one 2)

/-- Witness for `forward_step_equiv` at a concrete decoder and input. -/
theorem forward_step_equiv_witness :
    D0.wellFormed ∧
    ∃ lg st fat res sfin,
      D0.forward [(5 : Int), 7] (some 2) (none : Option Unit) mem0 msl0
        (none : Option Unit) (none : Option Unit) false = .ok (lg, st, fat) ∧
      iterSteps D0 mem0 msl0 false [(5 : Int), 7] 0
        (D0.getInitialState 4 (0 : Nat) (none : Option Unit)) = .ok (res, sfin) ∧
      res.length = 2 ∧
      ∀ (t : Nat) (p : Int × Option Int), res[t]? = some p →
        lg[t]? = some (D0.outputLayer p.1) ∧ p.2 = fat.bind fun l => l[t]? := by
  have hOk : (D0.forward [(5 : Int), 7] (some 2) (none : Option Unit) mem0 msl0
      (none : Option Unit) (none : Option Unit) false).isOk = true := by decide
  refine ⟨by unfold SelfAttentionDecoder.wellFormed; decide, ?_⟩
  cases hE : D0.forward [(5 : Int), 7] (some 2) (none : Option Unit) mem0 msl0
      (none : Option Unit) (none : Option Unit) false with
  | error e =>
    rw [hE] at hOk
    simp [Except.isOk, Except.toBool] at hOk
  | ok r =>
    obtain ⟨lg, st, fat⟩ := r
    obtain ⟨res, sfin, h1, h2, h3⟩ :=
      forward_step_equiv D0 (by unfold SelfAttentionDecoder.wellFormed; decide)
        [(5 : Int), 7] mem0 msl0 4 (0 : Nat) lg st fat hE
    exact ⟨lg, st, fat, res, sfin, rfl, h1, by simpa using h2, h3⟩

/-! ### C4: initial state shape -/

/-- C4: `get_initial_state(batch_size=B, dtype=D)` on a decoder built with
`num_layers` layers returns a cache with exactly `num_layers` entries, each
entry with `self_kv` key and value tensors of shape
`[B, num_heads, 0, num_units // num_heads]` and `memory_kv` holding exactly
`num_sources` key/value pairs of that same zero-time shape. -/
theorem getInitialState_shape {α κ γf γ δ DT σ : Type}
    (numLayers numUnits numHeads numSources : Nat) (scale : α → α)
    (posEnc : Option (Nat → α → α)) (drop layerNorm : α → α)
    (outputLayer : α → δ) (batchOf : α → Nat) (firstHead : γf → γ)
    (layerW : Nat → DecLayer α κ γf) (crossW : Nat → Nat → CrossAttnLayer α κ γf)
    (B : Nat) (dtype : DT) (is : Option σ) :
    ((SelfAttentionDecoder.init numLayers numUnits numHeads numSources scale posEnc
        drop layerNorm outputLayer batchOf firstHead layerW
        crossW).getInitialState (κ := κ) B dtype is).length = numLayers ∧
    ∀ e ∈ (SelfAttentionDecoder.init numLayers numUnits numHeads numSources scale posEnc
        drop layerNorm outputLayer batchOf firstHead layerW
        crossW).getInitialState (κ := κ) B dtype is,
      e.self_kv.keys.shape = [B, numHeads, 0, numUnits / numHeads] ∧
      e.self_kv.values.shape = [B, numHeads, 0, numUnits / numHeads] ∧
      e.memory_kv.length = numSources ∧
      ∀ kv ∈ e.memory_kv,
        kv.keys.shape = [B, numHeads, 0, numUnits / numHeads] ∧
        kv.values.shape = [B, numHeads, 0, numUnits / numHeads] := by
  constructor
  · simp [SelfAttentionDecoder.getInitialState, SelfAttentionDecoder.init]
  · intro e he
    simp only [SelfAttentionDecoder.getInitialState, SelfAttentionDecoder.init,
      List.mem_map] at he
    obtain ⟨_, _, heq⟩ := he
    rw [← heq]
    refine ⟨rfl, rfl, by simp, ?_⟩
    intro kv hkv
    have : kv = AttnCache.zeros κ B numHeads (numUnits / numHeads) :=
      List.eq_of_mem_replicate hkv
    rw [this]
    exact ⟨rfl, rfl⟩

/-! ### C3: scheduled-sampling rejection -/

theorem buildMemoryMask_error {α : Type} (memN : Option (List (List α)))
    (msl : Option (MemoryArg Nat)) (e : PyErr)
    (h : buildMemoryMask memN msl = .error e) : e = PyErr.typeErrorZipNone := by
  unfold buildMemoryMask at h
  cases msl with
  | none => exact absurd h (by simp)
  | some ls =>
    cases memN with
    | none => injection h with h2; exact h2.symm
    | some mems => exact absurd h (by simp)

theorem call_error {α κ γf γ : Type} (bOf : α → Nat) (fh : γf → γ)
    (ly : DecLayer α κ γf) (xs : List α) (mask : Option Mask)
    (memN : Option (List (List α))) (mm : Option (List MemMask))
    (cache : Option (LayerCache κ)) (e : PyErr)
    (h : ly.call bOf fh xs mask memN mm cache = .error e) :
    e = PyErr.typeErrorZipNone := by
  unfold DecLayer.call at h
  cases memN with
  | none => exact absurd h (by simp)
  | some mems =>
    cases mm with
    | none => injection h with h2; exact h2.symm
    | some masks => exact absurd h (by simp)

theorem layersLoop_error {α κ γf γ : Type} (bOf : α → Nat) (fh : γf → γ) :
    ∀ (ls : List (DecLayer α κ γf)) (xs : List α) (mask : Option Mask)
      (memN : Option (List (List α))) (mm : Option (List MemMask))
      (cache : Option (List (LayerCache κ))) (attn : Option (Option (List γ)))
      (e : PyErr),
      layersLoop bOf fh ls xs mask memN mm cache attn = .error e →
      e = PyErr.typeErrorZipNone ∨ e = PyErr.indexError := by
  intro ls
  induction ls with
  | nil => intro xs mask memN mm cache attn e h; exact absurd h (by simp [layersLoop])
  | cons ly rest ih =>
    intro xs mask memN mm cache attn e h
    simp only [layersLoop] at h
    rcases cache with _ | ⟨_ | ⟨c, cs⟩⟩
    · dsimp only at h
      cases hcall : ly.call bOf fh xs mask memN mm none with
      | error e2 =>
        rw [hcall] at h; dsimp only at h
        injection h with h2
        exact Or.inl (h2 ▸ call_error bOf fh ly xs mask memN mm none e2 hcall)
      | ok v =>
        obtain ⟨ys, c2, a⟩ := v
        rw [hcall] at h; dsimp only at h
        cases hloop : layersLoop bOf fh rest ys mask memN mm none (some a) with
        | error e3 =>
          rw [hloop] at h; dsimp only at h
          injection h with h2
          exact h2 ▸ ih ys mask memN mm none (some a) e3 hloop
        | ok r2 => rw [hloop] at h; dsimp only at h; exact absurd h (by simp)
    · dsimp only at h
      injection h with h2
      exact Or.inr h2.symm
    · dsimp only at h
      cases hcall : ly.call bOf fh xs mask memN mm (some c) with
      | error e2 =>
        rw [hcall] at h; dsimp only at h
        injection h with h2
        exact Or.inl (h2 ▸ call_error bOf fh ly xs mask memN mm (some c) e2 hcall)
      | ok v =>
        obtain ⟨ys, c2, a⟩ := v
        rw [hcall] at h; dsimp only at h
        cases hloop : layersLoop bOf fh rest ys mask memN mm (some cs) (some a) with
        | error e3 =>
          rw [hloop] at h; dsimp only at h
          injection h with h2
          exact h2 ▸ ih ys mask memN mm (some cs) (some a) e3 hloop
        | ok r2 => rw [hloop] at h; dsimp only at h; exact absurd h (by simp)

theorem runDecoder_error {α κ γf γ δ : Type} (D : SelfAttentionDecoder α κ γf γ δ)
    (inputs : List α) (sl : Option Nat) (cache : Option (List (LayerCache κ)))
    (memory : Option (MemoryArg (List α))) (msl : Option (MemoryArg Nat))
    (stepo : Option Nat) (tr : Bool) (e : PyErr)
    (h : D.runDecoder inputs sl cache memory msl stepo tr = .error e) :
    e = PyErr.typeErrorZipNone ∨ e = PyErr.indexError ∨
      e = PyErr.nameErrorAttention := by
  unfold SelfAttentionDecoder.runDecoder at h
  dsimp only at h
  cases hbm : buildMemoryMask (memory.map MemoryArg.norm) msl with
  | error e2 =>
    rw [hbm] at h; dsimp only at h
    injection h with h2
    exact Or.inl (h2 ▸ buildMemoryMask_error _ msl e2 hbm)
  | ok mmv =>
    rw [hbm] at h; dsimp only at h
    cases hll : layersLoop D.batchOf D.firstHead D.layers
        (processInputs D inputs stepo tr)
        (selfAttnMask sl (processInputs D inputs stepo tr).length)
        (memory.map MemoryArg.norm) mmv cache none with
    | error e3 =>
      rw [hll] at h; dsimp only at h
      injection h with h2
      rcases layersLoop_error D.batchOf D.firstHead _ _ _ _ mmv cache none e3 hll with
        h3 | h3
      · exact Or.inl (h2 ▸ h3)
      · exact Or.inr (Or.inl (h2 ▸ h3))
    | ok r =>
      obtain ⟨OUT, cs2, acc⟩ := r
      rw [hll] at h; dsimp only at h
      cases acc with
      | none => injection h with h2; exact Or.inr (Or.inr h2.symm)
      | some a => exact absurd h (by simp)

/-- C3: `forward` with a non-null `sampling_probability` raises the
unsupported-feature error and produces no result at all; with a null
`sampling_probability` that error is never raised — any failure of such a
call is one of the shared core's Python failures (`TypeError` from a `zip`
over `None`, `IndexError` on a short cache, `NameError` with zero layers),
never the scheduled-sampling rejection. -/
theorem forward_sampling_rejection {α κ γf γ δ σ φ ρ : Type}
    (D : SelfAttentionDecoder α κ γf γ δ) (inputs : List α) (sl : Option Nat)
    (is : Option σ) (memory : Option (MemoryArg (List α)))
    (msl : Option (MemoryArg Nat)) (ifn : Option φ) (tr : Bool) :
    (∀ p : ρ, D.forward inputs sl is memory msl ifn (some p) tr =
      .error PyErr.valueErrorScheduledSampling) ∧
    (∀ e, D.forward inputs sl is memory msl ifn (none : Option ρ) tr = .error e →
      e = PyErr.typeErrorZipNone ∨ e = PyErr.indexError ∨
        e = PyErr.nameErrorAttention) := by
  constructor
  · intro p; rfl
  · intro e h
    unfold SelfAttentionDecoder.forward at h
    dsimp only at h
    cases hr : D.runDecoder inputs sl none memory msl none tr with
    | error e2 =>
      rw [hr] at h; dsimp only at h
      injection h with h2
      exact h2 ▸ runDecoder_error D inputs sl none memory msl none tr e2 hr
    | ok r =>
      obtain ⟨os, st, at2⟩ := r
      rw [hr] at h; dsimp only at h
      exact absurd h (by simp)

/-- Witness for `forward_sampling_rejection`: at a concrete decoder, the
non-null case errors with the scheduled-sampling rejection, and a concrete
failing null-sampling call (memory without lengths) errors with the `zip`
`TypeError`, which the theorem classifies. -/
theorem forward_sampling_rejection_witness :
    D0.forward [(5 : Int)] none (none : Option Unit) mem0 msl0 (none : Option Unit)
      (some (1 : Nat)) false = .error PyErr.valueErrorScheduledSampling ∧
    (PyErr.typeErrorZipNone = PyErr.typeErrorZipNone ∨
      PyErr.typeErrorZipNone = PyErr.indexError ∨
      PyErr.typeErrorZipNone = PyErr.nameErrorAttention) :=
  ⟨(forward_sampling_rejection D0 [(5 : Int)] none (none : Option Unit) mem0 msl0
      (none : Option Unit) false).1 (1 : Nat),
   (forward_sampling_rejection (ρ := Nat) D0 [(5 : Int)] none (none : Option Unit)
      mem0 none (none : Option Unit) false).2 PyErr.typeErrorZipNone (by rfl)⟩

/-! ### C9: mask construction -/

/-- C9: a self-attention mask is built iff `sequence_length` is supplied:
`selfAttnMask` (the construction `_run` uses) yields no mask when
`sequence_length` is absent (as in incremental mode), and for a supplied
length `L` it yields the combined causal + padding mask sized to the current
input time extent `T`, under which key position `j` is visible to query
position `p` iff `j ≤ p` (causal) and `j < L` (padding). -/
theorem selfAttnMask_spec (sl : Option Nat) (T : Nat) :
    ((selfAttnMask sl T).isSome ↔ sl.isSome) ∧
    selfAttnMask none T = none ∧
    ∀ L, sl = some L → selfAttnMask sl T = some ⟨L, T⟩ ∧
      ∀ p j, Mask.allows ⟨L, T⟩ p j = true ↔ j ≤ p ∧ j < L := by
  refine ⟨?_, rfl, ?_⟩
  · cases sl <;> simp [selfAttnMask]
  · intro L hL
    subst hL
    refine ⟨rfl, ?_⟩
    intro p j
    simp [Mask.allows]

/-- Witness for `selfAttnMask_spec` at a concrete supplied length. -/
theorem selfAttnMask_spec_witness :
    selfAttnMask (some 2) 3 = some ⟨2, 3⟩ ∧
      (Mask.allows ⟨2, 3⟩ 1 1 = true ↔ 1 ≤ 1 ∧ 1 < 2) :=
  ⟨((selfAttnMask_spec (some 2) 3).2.2 2 rfl).1,
   ((selfAttnMask_spec (some 2) 3).2.2 2 rfl).2 1 1⟩

/-! ### C7: memory without lengths crashes (code bug) -/

/-- C7 (code bug in the source): supplying memory but omitting
`memory_sequence_length` does not run without a padding mask — the first
decoder layer's `zip` over the `None` `memory_mask` raises `TypeError`, for
any decoder with at least one layer. -/
theorem memory_without_lengths_crashes {α κ γf γ δ σ φ ρ : Type}
    (D : SelfAttentionDecoder α κ γf γ δ) (inputs : List α) (sl : Option Nat)
    (is : Option σ) (marg : MemoryArg (List α)) (ifn : Option φ) (tr : Bool)
    (hls : D.layers ≠ []) :
    D.forward inputs sl is (some marg) none ifn (none : Option ρ) tr =
      .error PyErr.typeErrorZipNone := by
  cases hd : D.layers with
  | nil => exact absurd hd hls
  | cons ly rest =>
    unfold SelfAttentionDecoder.forward SelfAttentionDecoder.runDecoder
    dsimp only
    rw [hd]
    rfl

/-- The concrete decoder has layers. -/
theorem D0_layers_ne_nil : D0.layers ≠ [] := by
  intro h
  have := congrArg List.length h
  simp [D0, SelfAttentionDecoder.init] at this

/-- Witness for `memory_without_lengths_crashes` at a concrete call. -/
theorem memory_without_lengths_crashes_witness :
    D0.forward [(5 : Int)] none (none : Option Unit) mem0 none (none : Option Unit)
      (none : Option Nat) false = .error PyErr.typeErrorZipNone :=
  memory_without_lengths_crashes D0 [(5 : Int)] none (none : Option Unit)
    (MemoryArg.one [1, 2, 3]) (none : Option Unit) false D0_layers_ne_nil

/-! ### C10: ignored arguments -/

theorem call_ok {α κ γf γ : Type} (bOf : α → Nat) (fh : γf → γ)
    (ly : DecLayer α κ γf) (xs : List α) (mask : Option Mask)
    (memN : Option (List (List α))) (mm : Option (List MemMask))
    (cache : Option (LayerCache κ))
    (hc : ∀ mems, memN = some mems → ∃ masks, mm = some masks) :
    ∃ ys c a, ly.call bOf fh xs mask memN mm cache = .ok (ys, c, a) := by
  cases memN with
  | none => exact ⟨_, _, _, rfl⟩
  | some mems =>
    obtain ⟨masks, rfl⟩ := hc mems rfl
    exact ⟨_, _, _, rfl⟩

theorem layersLoop_acc_some {α κ γf γ : Type} (bOf : α → Nat) (fh : γf → γ) :
    ∀ (ls : List (DecLayer α κ γf)) (xs : List α) (mask : Option Mask)
      (memN : Option (List (List α))) (mm : Option (List MemMask))
      (cache : Option (List (LayerCache κ))) (a0 : Option (List γ))
      (zs : List α) (cs : List (LayerCache κ)) (af : Option (Option (List γ))),
      layersLoop bOf fh ls xs mask memN mm cache (some a0) = .ok (zs, cs, af) →
      ∃ a2, af = some a2 := by
  intro ls
  induction ls with
  | nil =>
    intro xs mask memN mm cache a0 zs cs af h
    simp only [layersLoop] at h
    injection h with h2
    exact ⟨a0, (congrArg (fun r => r.2.2) h2).symm⟩
  | cons ly rest ih =>
    intro xs mask memN mm cache a0 zs cs af h
    simp only [layersLoop] at h
    rcases cache with _ | ⟨_ | ⟨c, cst⟩⟩
    · dsimp only at h
      cases hcall : ly.call bOf fh xs mask memN mm none with
      | error e => rw [hcall] at h; exact absurd h (by simp)
      | ok v =>
        obtain ⟨ys, c2, a⟩ := v
        rw [hcall] at h
        dsimp only at h
        cases hloop : layersLoop bOf fh rest ys mask memN mm none (some a) with
        | error e => rw [hloop] at h; exact absurd h (by simp)
        | ok r2 =>
          rw [hloop] at h
          dsimp only at h
          injection h with h2
          obtain ⟨a2, ha2⟩ := ih ys mask memN mm none a r2.1 r2.2.1 r2.2.2 hloop
          have h3 := congrArg (fun r => r.2.2) h2
          dsimp only at h3
          exact ⟨a2, by rw [← h3]; exact ha2⟩
    · exact absurd h (by simp)
    · dsimp only at h
      cases hcall : ly.call bOf fh xs mask memN mm (some c) with
      | error e => rw [hcall] at h; exact absurd h (by simp)
      | ok v =>
        obtain ⟨ys, c2, a⟩ := v
        rw [hcall] at h
        dsimp only at h
        cases hloop : layersLoop bOf fh rest ys mask memN mm (some cst) (some a) with
        | error e => rw [hloop] at h; exact absurd h (by simp)
        | ok r2 =>
          rw [hloop] at h
          dsimp only at h
          injection h with h2
          obtain ⟨a2, ha2⟩ := ih ys mask memN mm (some cst) a r2.1 r2.2.1 r2.2.2 hloop
          have h3 := congrArg (fun r => r.2.2) h2
          dsimp only at h3
          exact ⟨a2, by rw [← h3]; exact ha2⟩

theorem layersLoop_ok_construct {α κ γf γ : Type} (bOf : α → Nat) (fh : γf → γ) :
    ∀ (ls : List (DecLayer α κ γf)) (xs : List α) (mask : Option Mask)
      (memN : Option (List (List α))) (mm : Option (List MemMask))
      (attn : Option (Option (List γ)))
      (hc : ∀ mems, memN = some mems → ∃ masks, mm = some masks),
      ∃ zs cs af, layersLoop bOf fh ls xs mask memN mm none attn = .ok (zs, cs, af) ∧
        zs.length = xs.length ∧ cs.length = ls.length ∧
        (ls ≠ [] → ∃ a2, af = some a2) := by
  intro ls
  induction ls with
  | nil =>
    intro xs mask memN mm attn hc
    exact ⟨xs, [], attn, rfl, rfl, rfl, fun h => absurd rfl h⟩
  | cons ly rest ih =>
    intro xs mask memN mm attn hc
    obtain ⟨ys, c, a, hcall⟩ := call_ok bOf fh ly xs mask memN mm none hc
    obtain ⟨zs, cs, af, hloop, hl1, hl2, _⟩ := ih ys mask memN mm (some a) hc
    refine ⟨zs, c :: cs, af, ?_, ?_, by simp [hl2], ?_⟩
    · simp only [layersLoop, hcall]
      rw [hloop]
    · rw [hl1, call_length bOf fh ly xs mask memN mm none ys c a hcall]
    · intro _
      exact layersLoop_acc_some bOf fh rest ys mask memN mm none a zs cs af hloop

/-- C10: `forward` ignores `initial_state` and `input_fn` entirely — two
calls differing only in them return identical logits, state and attention —
and a non-null `input_fn` alone (null `sampling_probability`, no memory)
raises no error when the decoder has at least one layer. -/
theorem forward_ignores_state_inputfn {α κ γf γ δ σ1 σ2 φ1 φ2 ρ : Type}
    (D : SelfAttentionDecoder α κ γf γ δ) (inputs : List α) (sl : Option Nat)
    (s1 : Option σ1) (s2 : Option σ2) (memory : Option (MemoryArg (List α)))
    (msl : Option (MemoryArg Nat)) (f1 : Option φ1) (f2 : Option φ2)
    (sp : Option ρ) (tr : Bool) :
    D.forward inputs sl s1 memory msl f1 sp tr =
      D.forward inputs sl s2 memory msl f2 sp tr ∧
    (D.layers ≠ [] → ∀ f : φ1, ∃ r,
      D.forward inputs sl s1 none none (some f) (none : Option ρ) tr = .ok r) := by
  constructor
  · rfl
  · intro hls f
    obtain ⟨zs, cs, af, hloop, _, _, hne⟩ :=
      layersLoop_ok_construct D.batchOf D.firstHead D.layers
        (processInputs D inputs none tr)
        (selfAttnMask sl (processInputs D inputs none tr).length) none none none
        (fun mems h => absurd h (by simp))
    obtain ⟨a, ha⟩ := hne hls
    subst ha
    unfold SelfAttentionDecoder.forward SelfAttentionDecoder.runDecoder
    dsimp only
    simp only [Option.map_none', buildMemoryMask]
    rw [hloop]
    exact ⟨_, rfl⟩

/-- Witness for `forward_ignores_state_inputfn` at concrete differing
ignored arguments. -/
theorem forward_ignores_state_inputfn_witness :
    (D0.forward [(5 : Int)] none (some 42) none none (some true) (none : Option Nat)
        false =
      D0.forward [(5 : Int)] none (some 99) none none (some false) (none : Option Nat)
        false) ∧
    ∃ r, D0.forward [(5 : Int)] none (some 42) none none (some true)
      (none : Option Nat) false = .ok r :=
  ⟨(forward_ignores_state_inputfn D0 [(5 : Int)] none (some 42) (some 99) none none
      (some true) (some false) (none : Option Nat) false).1,
   (forward_ignores_state_inputfn D0 [(5 : Int)] none (some 42) (some 99) none none
      (some true) (some false) (none : Option Nat) false).2 D0_layers_ne_nil true⟩

/-! ### C6: arity mismatches truncate silently -/

theorem zip4_length {a b c d : Type} :
    ∀ (as2 : List a) (bs : List b) (cs : List c) (ds : List d),
      (zip4 as2 bs cs ds).length =
        min as2.length (min bs.length (min cs.length ds.length)) := by
  intro as2
  induction as2 with
  | nil => intro bs cs ds; simp [zip4]
  | cons x xs ih =>
    intro bs cs ds
    cases bs with
    | nil => simp [zip4]
    | cons b bs =>
      cases cs with
      | nil => simp [zip4]
      | cons c cs =>
        cases ds with
        | nil => simp [zip4]
        | cons d ds =>
          simp only [zip4, List.length_cons, ih]
          omega

theorem crossLoop_kvs_length {α κ γf γ : Type} (bOf : α → Nat) (fh : γf → γ)
    (heads headDim : Nat) :
    ∀ (items : List (CrossAttnLayer α κ γf × List α × MemMask × Option (AttnCache κ)))
      (qs : List α) (attn : Option (List γ)),
      (crossLoop bOf fh heads headDim items qs attn).2.1.length = items.length := by
  intro items
  induction items with
  | nil => intro qs attn; rfl
  | cons it rest ih =>
    obtain ⟨cw, mem, mk, mc⟩ := it
    intro qs attn
    simp only [crossLoop, List.length_cons]
    rw [ih]

theorem call_memkv_length {α κ γf γ : Type} (bOf : α → Nat) (fh : γf → γ)
    (ly : DecLayer α κ γf) (xs : List α) (mask : Option Mask)
    (mems : List (List α)) (masks : List MemMask) (ys : List α)
    (c : LayerCache κ) (a : Option (List γ))
    (h : ly.call bOf fh xs mask (some mems) (some masks) none = .ok (ys, c, a)) :
    c.memory_kv.length = min ly.cross.length (min mems.length masks.length) := by
  unfold DecLayer.call at h
  dsimp only at h
  injection h with h2
  have h3 := congrArg (fun r => r.2.1.memory_kv) h2
  dsimp only at h3
  rw [← h3, crossLoop_kvs_length, zip4_length, List.length_replicate]
  omega

theorem layersLoop_memkv_length {α κ γf γ : Type} (bOf : α → Nat) (fh : γf → γ) :
    ∀ (ls : List (DecLayer α κ γf)) (xs : List α) (mask : Option Mask)
      (mems : List (List α)) (masks : List MemMask)
      (attn : Option (Option (List γ))) (zs : List α) (cs : List (LayerCache κ))
      (af : Option (Option (List γ))) (S : Nat),
      layersLoop bOf fh ls xs mask (some mems) (some masks) none attn =
        .ok (zs, cs, af) →
      (∀ ly ∈ ls, ly.cross.length = S) →
      ∀ c ∈ cs, c.memory_kv.length = min S (min mems.length masks.length) := by
  intro ls
  induction ls with
  | nil =>
    intro xs mask mems masks attn zs cs af S h _
    simp only [layersLoop] at h
    injection h with h2
    have h3 := congrArg (fun r => r.2.1) h2
    dsimp only at h3
    rw [← h3]
    intro c hc
    simp at hc
  | cons ly rest ih =>
    intro xs mask mems masks attn zs cs af S h hWF
    obtain ⟨YS, C, A, r2, hcall, hloop, hr⟩ :=
      layersLoop_cons_none_inv bOf fh ly rest xs mask (some mems) (some masks) attn
        (zs, cs, af) h
    have hC : C.memory_kv.length = min S (min mems.length masks.length) := by
      rw [call_memkv_length bOf fh ly xs mask mems masks YS C A hcall,
        hWF ly (by simp)]
    have hrest := ih YS mask mems masks (some A) r2.1 r2.2.1 r2.2.2 S hloop
      (fun ly2 hly2 => hWF ly2 (by simp [hly2]))
    intro c hc
    have hcs : cs = C :: r2.2.1 := congrArg (fun r => r.2.1) hr
    rw [hcs] at hc
    rcases List.mem_cons.mp hc with hc1 | hc2
    · rw [hc1]; exact hC
    · exact hrest c hc2

/-- C6 counterexample: a decoder configured with `num_sources = 2`, called
with a single memory source and a single length vector, does not fail — the
call succeeds and silently computes over the truncated single source (the
layer's new cache holds exactly one memory entry). -/
theorem arity_mismatch_silent :
    D2src.numSources = 2 ∧
    Except.map (fun r => r.2.1.map fun c => c.memory_kv.length)
      (D2src.forward [(5 : Int)] (some 1) (none : Option Unit) mem0 msl0
        (none : Option Unit) (none : Option Unit) false) = .ok [1] :=
  ⟨rfl, rfl⟩

/-- C6 (amended): a number of memory tensors or length vectors inconsistent
with the configured `num_sources` is not rejected — the `zip` silently
truncates: given lengths are supplied and the decoder has at least one
layer, the call succeeds and each layer's new cache holds
`min(num_sources, #memories, #lengths)` memory entries rather than failing.
Genuine tensor-shape mismatches would fail inside the (external) attention
collaborator, but source-count mismatches never reach it. -/
theorem arity_mismatch_truncates {α κ γf γ δ σ φ ρ : Type}
    (D : SelfAttentionDecoder α κ γf γ δ) (hWF : D.wellFormed)
    (inputs : List α) (sl : Option Nat) (is : Option σ)
    (marg : MemoryArg (List α)) (larg : MemoryArg Nat) (ifn : Option φ)
    (tr : Bool) (hls : D.layers ≠ []) :
    ∃ lg st at2, D.forward inputs sl is (some marg) (some larg) ifn
      (none : Option ρ) tr = .ok (lg, st, at2) ∧
      st.length = D.layers.length ∧
      ∀ c ∈ st, c.memory_kv.length =
        min D.numSources (min marg.norm.length larg.norm.length) := by
  obtain ⟨zs, cs, af, hloop, _, hcs, hne⟩ :=
    layersLoop_ok_construct D.batchOf D.firstHead D.layers
      (processInputs D inputs none tr)
      (selfAttnMask sl (processInputs D inputs none tr).length) (some marg.norm)
      (some ((marg.norm.zip larg.norm).map fun p => ⟨p.2, p.1.length⟩)) none
      (fun mems h => ⟨_, rfl⟩)
  obtain ⟨a, ha⟩ := hne hls
  subst ha
  refine ⟨zs.map D.layerNorm |>.map D.outputLayer, cs, a, ?_, hcs, ?_⟩
  · unfold SelfAttentionDecoder.forward SelfAttentionDecoder.runDecoder
    dsimp only
    simp only [Option.map_some', buildMemoryMask]
    rw [hloop]
  · intro c hc
    have hmask : ((marg.norm.zip larg.norm).map fun p =>
        (⟨p.2, p.1.length⟩ : MemMask)).length = min marg.norm.length larg.norm.length := by
      simp [List.length_zip]
    have := layersLoop_memkv_length D.batchOf D.firstHead D.layers
      (processInputs D inputs none tr)
      (selfAttnMask sl (processInputs D inputs none tr).length) marg.norm
      ((marg.norm.zip larg.norm).map fun p => ⟨p.2, p.1.length⟩) none zs cs
      (some a) D.numSources hloop (fun ly hly => (hWF ly hly).2.2.1) c hc
    rw [this, hmask]
    omega

/-- Witness for `arity_mismatch_truncates` at a concrete mismatched call. -/
theorem arity_mismatch_truncates_witness :
    ∃ lg st at2,
      D2src.forward [(5 : Int)] (some 1) (none : Option Unit)
        (some (MemoryArg.one [1, 2, 3])) (some (MemoryArg.one 2))
        (none : Option Unit) (none : Option Nat) false = .ok (lg, st, at2) ∧
      st.length = D2src.layers.length ∧
      ∀ c ∈ st, c.memory_kv.length =
        min D2src.numSources
          (min (MemoryArg.one [(1 : Int), 2, 3]).norm.length
            (MemoryArg.one (2 : Nat)).norm.length) := by
  refine arity_mismatch_truncates D2src ?_ [(5 : Int)] (some 1) (none : Option Unit)
    (MemoryArg.one [1, 2, 3]) (MemoryArg.one 2) (none : Option Unit) false ?_
  · unfold SelfAttentionDecoder.wellFormed
    decide
  · intro h
    have := congrArg List.length h
    simp [D2src, SelfAttentionDecoder.init] at this

/-! ### C5: attention reporting gated on the source count -/

theorem zip4_mem_fst {a b c d : Type} :
    ∀ (as2 : List a) (bs : List b) (cs : List c) (ds : List d) (it : a × b × c × d),
      it ∈ zip4 as2 bs cs ds → it.1 ∈ as2 := by
  intro as2
  induction as2 with
  | nil => intro bs cs ds it hit; simp [zip4] at hit
  | cons x xs ih =>
    intro bs cs ds it hit
    cases bs with
    | nil => simp [zip4] at hit
    | cons b bs =>
      cases cs with
      | nil => simp [zip4] at hit
      | cons c cs =>
        cases ds with
        | nil => simp [zip4] at hit
        | cons d ds =>
          simp only [zip4, List.mem_cons] at hit
          rcases hit with h1 | h2
          · rw [h1]; simp
          · exact List.mem_cons_of_mem x (ih bs cs ds it h2)

theorem crossWrapped_out_length {α κ γf : Type} (bOf : α → Nat)
    (heads headDim : Nat) (cw : CrossAttnLayer α κ γf) (mem : List α)
    (mask : Option MemMask) (mc : Option (AttnCache κ)) (xs : List α) :
    (crossWrapped bOf heads headDim cw mem mask mc xs).1.length = xs.length := by
  simp [crossWrapped, mhaCross, List.length_zipWith]

theorem crossLoop_attn_false {α κ γf γ : Type} (bOf : α → Nat) (fh : γf → γ)
    (heads headDim : Nat) :
    ∀ (items : List (CrossAttnLayer α κ γf × List α × MemMask × Option (AttnCache κ)))
      (qs : List α) (attn : Option (List γ)),
      (∀ it ∈ items, it.1.retAttn = false) →
      (crossLoop bOf fh heads headDim items qs attn).2.2 = attn := by
  intro items
  induction items with
  | nil => intro qs attn _; rfl
  | cons it rest ih =>
    obtain ⟨cw, mem, mk, mc⟩ := it
    intro qs attn hfalse
    have hf : cw.retAttn = false := hfalse (cw, mem, mk, mc) (by simp)
    simp only [crossLoop, crossWrapped, mhaCross, hf, if_false]
    exact ih _ attn fun it2 hit2 => hfalse it2 (by simp [hit2])

theorem crossLoop_attn_true {α κ γf γ : Type} (bOf : α → Nat) (fh : γf → γ)
    (heads headDim : Nat) :
    ∀ (items : List (CrossAttnLayer α κ γf × List α × MemMask × Option (AttnCache κ)))
      (qs : List α) (attn : Option (List γ)),
      items ≠ [] →
      (∀ it ∈ items, it.1.retAttn = true) →
      ∃ l, (crossLoop bOf fh heads headDim items qs attn).2.2 = some l ∧
        l.length = qs.length := by
  intro items
  induction items with
  | nil => intro qs attn hne _; exact absurd rfl hne
  | cons it rest ih =>
    obtain ⟨cw, mem, mk, mc⟩ := it
    intro qs attn _ htrue
    have ht : cw.retAttn = true := htrue (cw, mem, mk, mc) (by simp)
    cases rest with
    | nil =>
      refine ⟨((qs.map cw.normIn).map fun q =>
        cw.weights q (resolveMemKV bOf heads headDim cw mem mc).keys.slices
          (resolveMemKV bOf heads headDim cw mem mc).values.slices (some mk)).map fh,
        ?_, by simp⟩
      simp only [crossLoop, crossWrapped, mhaCross, ht, if_true]
    | cons it2 rest2 =>
      obtain ⟨l, hl, hlen⟩ := ih (crossWrapped bOf heads headDim cw mem (some mk) mc qs).1
        (some (((qs.map cw.normIn).map fun q =>
          cw.weights q (resolveMemKV bOf heads headDim cw mem mc).keys.slices
            (resolveMemKV bOf heads headDim cw mem mc).values.slices (some mk)).map fh))
        (by simp) (fun it3 hit3 => htrue it3 (by simp [hit3]))
      refine ⟨l, ?_, by rw [hlen, crossWrapped_out_length]⟩
      simp only [crossLoop, crossWrapped, mhaCross, ht, if_true] at hl ⊢
      exact hl

theorem call_attn_none {α κ γf γ : Type} (bOf : α → Nat) (fh : γf → γ)
    (ly : DecLayer α κ γf) (xs : List α) (mask : Option Mask)
    (memN : Option (List (List α))) (mm : Option (List MemMask))
    (cache : Option (LayerCache κ)) (ys : List α) (c : LayerCache κ)
    (a : Option (List γ))
    (hfalse : ∀ cw ∈ ly.cross, cw.retAttn = false)
    (h : ly.call bOf fh xs mask memN mm cache = .ok (ys, c, a)) : a = none := by
  unfold DecLayer.call at h
  cases memN with
  | none =>
    dsimp only at h
    injection h with h2
    exact (congrArg (fun r => r.2.2) h2).symm
  | some mems =>
    cases mm with
    | none => exact absurd h (by simp)
    | some masks =>
      dsimp only at h
      injection h with h2
      have h3 := congrArg (fun r => r.2.2) h2
      dsimp only at h3
      rw [← h3]
      exact crossLoop_attn_false bOf fh ly.heads (ly.units / ly.heads) _ _ none
        fun it hit => hfalse it.1 (zip4_mem_fst _ _ _ _ it hit)

theorem call_attn_some {α κ γf γ : Type} (bOf : α → Nat) (fh : γf → γ)
    (ly : DecLayer α κ γf) (xs : List α) (mask : Option Mask)
    (mems : List (List α)) (masks : List MemMask)
    (htrue : ∀ cw ∈ ly.cross, cw.retAttn = true) (hcr : ly.cross ≠ [])
    (hm : mems ≠ []) (hk : masks ≠ []) :
    ∃ ys c l, ly.call bOf fh xs mask (some mems) (some masks) none =
      .ok (ys, c, some l) ∧ l.length = xs.length := by
  have hne : zip4 ly.cross mems masks
      (List.replicate ly.cross.length (none : Option (AttnCache κ))) ≠ [] := by
    cases hc : ly.cross with
    | nil => exact absurd hc hcr
    | cons cw crest =>
      cases mems with
      | nil => exact absurd rfl hm
      | cons m mrest =>
        cases masks with
        | nil => exact absurd rfl hk
        | cons k krest => simp [zip4]
  obtain ⟨l, hl, hlen⟩ := crossLoop_attn_true bOf fh ly.heads (ly.units / ly.heads)
    (zip4 ly.cross mems masks (List.replicate ly.cross.length none))
    (selfAttnWrapped bOf ly mask (Option.map (fun x => x.self_kv)
      (none : Option (LayerCache κ))) xs).1 none hne
    (fun it hit => htrue it.1 (zip4_mem_fst _ _ _ _ it hit))
  have heval : ly.call bOf fh xs mask (some mems) (some masks) none =
      .ok (ffnApply ly (crossLoop bOf fh ly.heads (ly.units / ly.heads)
            (zip4 ly.cross mems masks (List.replicate ly.cross.length none))
            (selfAttnWrapped bOf ly mask (Option.map (fun x => x.self_kv)
              (none : Option (LayerCache κ))) xs).1 none).1,
        ⟨(selfAttnWrapped bOf ly mask (Option.map (fun x => x.self_kv)
            (none : Option (LayerCache κ))) xs).2,
         (crossLoop bOf fh ly.heads (ly.units / ly.heads)
            (zip4 ly.cross mems masks (List.replicate ly.cross.length none))
            (selfAttnWrapped bOf ly mask (Option.map (fun x => x.self_kv)
              (none : Option (LayerCache κ))) xs).1 none).2.1⟩,
        (crossLoop bOf fh ly.heads (ly.units / ly.heads)
            (zip4 ly.cross mems masks (List.replicate ly.cross.length none))
            (selfAttnWrapped bOf ly mask (Option.map (fun x => x.self_kv)
              (none : Option (LayerCache κ))) xs).1 none).2.2) := rfl
  rw [hl] at heval
  exact ⟨_, _, l, heval, by rw [hlen, selfAttnWrapped_length]⟩

theorem layersLoop_attn_stays_none {α κ γf γ : Type} (bOf : α → Nat) (fh : γf → γ) :
    ∀ (ls : List (DecLayer α κ γf)) (xs : List α) (mask : Option Mask)
      (memN : Option (List (List α))) (mm : Option (List MemMask))
      (cache : Option (List (LayerCache κ))) (attn : Option (Option (List γ)))
      (zs : List α) (cs : List (LayerCache κ)) (af : Option (Option (List γ))),
      (∀ ly ∈ ls, ∀ cw ∈ ly.cross, cw.retAttn = false) →
      layersLoop bOf fh ls xs mask memN mm cache attn = .ok (zs, cs, af) →
      af = attn ∨ af = some none := by
  intro ls
  induction ls with
  | nil =>
    intro xs mask memN mm cache attn zs cs af _ h
    simp only [layersLoop] at h
    injection h with h2
    exact Or.inl (congrArg (fun r => r.2.2) h2).symm
  | cons ly rest ih =>
    intro xs mask memN mm cache attn zs cs af hfalse h
    simp only [layersLoop] at h
    rcases cache with _ | ⟨_ | ⟨c, cst⟩⟩
    · dsimp only at h
      cases hcall : ly.call bOf fh xs mask memN mm none with
      | error e => rw [hcall] at h; exact absurd h (by simp)
      | ok v =>
        obtain ⟨ys, c2, a⟩ := v
        rw [hcall] at h
        dsimp only at h
        cases hloop : layersLoop bOf fh rest ys mask memN mm none (some a) with
        | error e => rw [hloop] at h; exact absurd h (by simp)
        | ok r2 =>
          rw [hloop] at h
          dsimp only at h
          injection h with h2
          have h3 := congrArg (fun r => r.2.2) h2
          dsimp only at h3
          have ha : a = none := call_attn_none bOf fh ly xs mask memN mm none ys c2 a
            (hfalse ly (by simp)) hcall
          rcases ih ys mask memN mm none (some a) r2.1 r2.2.1 r2.2.2
              (fun ly2 hly2 => hfalse ly2 (by simp [hly2])) hloop with h4 | h4
          · exact Or.inr (by rw [← h3, h4, ha])
          · exact Or.inr (by rw [← h3, h4])
    · exact absurd h (by simp)
    · dsimp only at h
      cases hcall : ly.call bOf fh xs mask memN mm (some c) with
      | error e => rw [hcall] at h; exact absurd h (by simp)
      | ok v =>
        obtain ⟨ys, c2, a⟩ := v
        rw [hcall] at h
        dsimp only at h
        cases hloop : layersLoop bOf fh rest ys mask memN mm (some cst) (some a) with
        | error e => rw [hloop] at h; exact absurd h (by simp)
        | ok r2 =>
          rw [hloop] at h
          dsimp only at h
          injection h with h2
          have h3 := congrArg (fun r => r.2.2) h2
          dsimp only at h3
          have ha : a = none := call_attn_none bOf fh ly xs mask memN mm (some c) ys c2 a
            (hfalse ly (by simp)) hcall
          rcases ih ys mask memN mm (some cst) (some a) r2.1 r2.2.1 r2.2.2
              (fun ly2 hly2 => hfalse ly2 (by simp [hly2])) hloop with h4 | h4
          · exact Or.inr (by rw [← h3, h4, ha])
          · exact Or.inr (by rw [← h3, h4])

theorem layersLoop_attn_last_true {α κ γf γ : Type} (bOf : α → Nat) (fh : γf → γ) :
    ∀ (ls : List (DecLayer α κ γf)) (xs : List α) (mask : Option Mask)
      (mems : List (List α)) (masks : List MemMask)
      (attn : Option (Option (List γ))) (zs : List α) (cs : List (LayerCache κ))
      (af : Option (Option (List γ))),
      ls ≠ [] →
      (∀ ly ∈ ls, (∀ cw ∈ ly.cross, cw.retAttn = true) ∧ ly.cross ≠ []) →
      mems ≠ [] → masks ≠ [] →
      layersLoop bOf fh ls xs mask (some mems) (some masks) none attn =
        .ok (zs, cs, af) →
      ∃ l, af = some (some l) ∧ l.length = xs.length := by
  intro ls
  induction ls with
  | nil => intro xs mask mems masks attn zs cs af hne _ _ _ _; exact absurd rfl hne
  | cons ly rest ih =>
    intro xs mask mems masks attn zs cs af _ htrue hm hk h
    obtain ⟨YS, C, A, r2, hcall, hloop, hr⟩ :=
      layersLoop_cons_none_inv bOf fh ly rest xs mask (some mems) (some masks) attn
        (zs, cs, af) h
    obtain ⟨ys2, c2, l0, hcall2, hlen0⟩ :=
      call_attn_some bOf fh ly xs mask mems masks (htrue ly (by simp)).1
        (htrue ly (by simp)).2 hm hk
    rw [hcall] at hcall2
    injection hcall2 with heq
    injection heq with e1 e23
    injection e23 with e2 e3
    have haf : af = r2.2.2 := (congrArg (fun r => r.2.2) hr)
    cases rest with
    | nil =>
      simp only [layersLoop] at hloop
      injection hloop with h2
      refine ⟨l0, ?_, hlen0⟩
      rw [haf, ← (congrArg (fun r => r.2.2) h2), e3]
    | cons ly2 rest2 =>
      obtain ⟨l, hl, hlen⟩ := ih YS mask mems masks (some A) r2.1 r2.2.1 r2.2.2
        (by simp) (fun ly3 hly3 => htrue ly3 (by simp [hly3])) hm hk hloop
      refine ⟨l, by rw [haf, hl], ?_⟩
      rw [hlen, call_length bOf fh ly xs mask (some mems) (some masks) none YS C A hcall]

/-- C5 (amended): attention reporting is gated on the configured source
count.  With `num_sources = 1` AND a memory source and its length vector
supplied (both non-empty), the call succeeds with a non-empty attention
holding one entry per query position (the first head of the last layer's
memory attention).  With `num_sources ≠ 1`, every successful `forward` or
`step` yields an absent attention.  (With `num_sources = 1` but no memory
supplied, attention is also absent — see the counterexample.) -/
theorem attention_source_gating {α κ γf γ δ σ φ ρ : Type}
    (D : SelfAttentionDecoder α κ γf γ δ) (hWF : D.wellFormed) :
    (D.numSources = 1 →
      ∀ (inputs : List α) (sl : Option Nat) (marg : MemoryArg (List α))
        (larg : MemoryArg Nat) (tr : Bool),
        D.layers ≠ [] → marg.norm ≠ [] → larg.norm ≠ [] →
        ∃ lg st l, D.forward inputs sl (none : Option σ) (some marg) (some larg)
          (none : Option φ) (none : Option ρ) tr = .ok (lg, st, some l) ∧
          l.length = inputs.length) ∧
    (D.numSources ≠ 1 →
      (∀ (inputs : List α) (sl : Option Nat) (is : Option σ)
        (memory : Option (MemoryArg (List α))) (msl : Option (MemoryArg Nat))
        (ifn : Option φ) (tr : Bool) (lg : List δ) (st : List (LayerCache κ))
        (at2 : Option (List γ)),
        D.forward inputs sl is memory msl ifn (none : Option ρ) tr =
          .ok (lg, st, at2) → at2 = none) ∧
      (∀ (x : α) (t : Nat) (state : Option (List (LayerCache κ)))
        (memory : Option (MemoryArg (List α))) (msl : Option (MemoryArg Nat))
        (tr : Bool) (o : α) (st2 : List (LayerCache κ)) (a : Option γ),
        D.step x t state memory msl tr = .ok (o, st2, a) → a = none)) := by
  constructor
  · intro h1 inputs sl marg larg tr hls hm hk
    have hmasks : ((marg.norm.zip larg.norm).map fun p =>
        (⟨p.2, p.1.length⟩ : MemMask)) ≠ [] := by
      cases hmn : marg.norm with
      | nil => exact absurd hmn hm
      | cons m mrest =>
        cases hln : larg.norm with
        | nil => exact absurd hln hk
        | cons L lrest => simp
    obtain ⟨zs, cs, af, hloop, _, _, hne⟩ :=
      layersLoop_ok_construct D.batchOf D.firstHead D.layers
        (processInputs D inputs none tr)
        (selfAttnMask sl (processInputs D inputs none tr).length) (some marg.norm)
        (some ((marg.norm.zip larg.norm).map fun p => ⟨p.2, p.1.length⟩)) none
        (fun mems h => ⟨_, rfl⟩)
    obtain ⟨l, hl, hlen⟩ := layersLoop_attn_last_true D.batchOf D.firstHead D.layers
      (processInputs D inputs none tr)
      (selfAttnMask sl (processInputs D inputs none tr).length) marg.norm
      ((marg.norm.zip larg.norm).map fun p => ⟨p.2, p.1.length⟩) none zs cs af hls
      (fun ly hly => by
        obtain ⟨_, _, hcl, hra⟩ := hWF ly hly
        refine ⟨fun cw hcw => ?_, ?_⟩
        · rw [hra cw hcw, h1]; rfl
        · intro hnil
          rw [hnil] at hcl
          simp [h1] at hcl)
      hm hmasks hloop
    subst hl
    refine ⟨(zs.map D.layerNorm).map D.outputLayer, cs, l, ?_,
      by rw [hlen, processInputs_length]⟩
    unfold SelfAttentionDecoder.forward SelfAttentionDecoder.runDecoder
    dsimp only
    simp only [Option.map_some', buildMemoryMask]
    rw [hloop]
  · intro hne
    have hfalse : ∀ ly ∈ D.layers, ∀ cw ∈ ly.cross, cw.retAttn = false := by
      intro ly hly cw hcw
      rw [(hWF ly hly).2.2.2 cw hcw]
      simp [hne]
    constructor
    · intro inputs sl is memory msl ifn tr lg st at2 h
      unfold SelfAttentionDecoder.forward at h
      dsimp only at h
      cases hr : D.runDecoder inputs sl none memory msl none tr with
      | error e => rw [hr] at h; exact absurd h (by simp)
      | ok r =>
        obtain ⟨os, st3, at3⟩ := r
        rw [hr] at h
        dsimp only at h
        injection h with h2
        have hat : at3 = at2 := congrArg (fun r => r.2.2) h2
        obtain ⟨mmv, OUT, hbm, hll, _⟩ :=
          runDecoder_inv D inputs sl none memory msl none tr os st3 at3 hr
        rcases layersLoop_attn_stays_none D.batchOf D.firstHead D.layers _ _ _ mmv
            none none OUT st3 (some at3) hfalse hll with h4 | h4
        · exact absurd h4 (by simp)
        · rw [← hat]
          injection h4 with h5
    · intro x t state memory msl tr o st2 a h
      unfold SelfAttentionDecoder.step at h
      cases hr : D.runDecoder [x] none state memory msl (some t) tr with
      | error e => rw [hr] at h; exact absurd h (by simp)
      | ok r =>
        obtain ⟨os, st3, aw⟩ := r
        rw [hr] at h
        dsimp only at h
        obtain ⟨mmv, OUT, hbm, hll, _⟩ :=
          runDecoder_inv D [x] none state memory msl (some t) tr os st3 aw hr
        have haw : aw = none := by
          rcases layersLoop_attn_stays_none D.batchOf D.firstHead D.layers _ _ _ mmv
              state none OUT st3 (some aw) hfalse hll with h4 | h4
          · exact absurd h4 (by simp)
          · injection h4 with h5
        subst haw
        cases hsq : squeeze1 os with
        | error e => rw [hsq] at h; exact absurd h (by simp)
        | ok o2 =>
          rw [hsq] at h
          dsimp only at h
          injection h with h2
          exact (congrArg (fun r => r.2.2) h2).symm

/-- C5 counterexample: a decoder configured with `num_sources = 1`, called
without memory, returns an absent attention — "attention is non-empty
whenever `num_sources = 1`" fails as stated. -/
theorem attention_absent_without_memory :
    D0.numSources = 1 ∧
    Except.map (fun r => r.2.2)
      (D0.forward [(5 : Int)] (some 1) (none : Option Unit) none none
        (none : Option Unit) (none : Option Unit) false) =
      .ok (none : Option (List Int)) := ⟨rfl, rfl⟩

/-- Witness for `attention_source_gating` at the concrete one-source
decoder. -/
theorem attention_source_gating_witness :
    ∃ lg st l, D0.forward [(5 : Int), 7] (some 2) (none : Option Unit) mem0 msl0
      (none : Option Unit) (none : Option Unit) false = .ok (lg, st, some l) ∧
      l.length = 2 := by
  obtain ⟨lg, st, l, h1, h2⟩ :=
    (attention_source_gating (σ := Unit) (φ := Unit) (ρ := Unit) D0
      (by unfold SelfAttentionDecoder.wellFormed; decide)).1 rfl [(5 : Int), 7]
      (some 2) (MemoryArg.one [1, 2, 3]) (MemoryArg.one 2) false D0_layers_ne_nil
      (by simp [MemoryArg.norm]) (by simp [MemoryArg.norm])
  exact ⟨lg, st, l, h1, by simpa using h2⟩

/-! ### C8: step expands, runs the shared core at position t+1, squeezes -/

theorem squeeze1_ok_iff {β : Type} (l : List β) (v : β) :
    squeeze1 l = .ok v ↔ l = [v] := by
  cases l with
  | nil => simp [squeeze1]
  | cons x rest =>
    cases rest with
    | nil =>
      constructor
      · intro h; injection h with h2; rw [h2]
      · intro h; injection h with h2; rw [h2]; rfl
    | cons y r2 => simp [squeeze1]

theorem layersLoop_out_length {α κ γf γ : Type} (bOf : α → Nat) (fh : γf → γ) :
    ∀ (ls : List (DecLayer α κ γf)) (xs : List α) (mask : Option Mask)
      (memN : Option (List (List α))) (mm : Option (List MemMask))
      (cache : Option (List (LayerCache κ))) (attn : Option (Option (List γ)))
      (zs : List α) (cs : List (LayerCache κ)) (af : Option (Option (List γ))),
      layersLoop bOf fh ls xs mask memN mm cache attn = .ok (zs, cs, af) →
      zs.length = xs.length := by
  intro ls
  induction ls with
  | nil =>
    intro xs mask memN mm cache attn zs cs af h
    simp only [layersLoop] at h
    injection h with h2
    have h3 := congrArg (fun r => r.1) h2
    dsimp only at h3
    rw [← h3]
  | cons ly rest ih =>
    intro xs mask memN mm cache attn zs cs af h
    simp only [layersLoop] at h
    rcases cache with _ | ⟨_ | ⟨c, cst⟩⟩
    · dsimp only at h
      cases hcall : ly.call bOf fh xs mask memN mm none with
      | error e => rw [hcall] at h; exact absurd h (by simp)
      | ok v =>
        obtain ⟨ys, c2, a⟩ := v
        rw [hcall] at h
        dsimp only at h
        cases hloop : layersLoop bOf fh rest ys mask memN mm none (some a) with
        | error e => rw [hloop] at h; exact absurd h (by simp)
        | ok r2 =>
          rw [hloop] at h
          dsimp only at h
          injection h with h2
          have h3 := congrArg (fun r => r.1) h2
          dsimp only at h3
          rw [← h3, ih ys mask memN mm none (some a) r2.1 r2.2.1 r2.2.2 hloop,
            call_length bOf fh ly xs mask memN mm none ys c2 a hcall]
    · exact absurd h (by simp)
    · dsimp only at h
      cases hcall : ly.call bOf fh xs mask memN mm (some c) with
      | error e => rw [hcall] at h; exact absurd h (by simp)
      | ok v =>
        obtain ⟨ys, c2, a⟩ := v
        rw [hcall] at h
        dsimp only at h
        cases hloop : layersLoop bOf fh rest ys mask memN mm (some cst) (some a) with
        | error e => rw [hloop] at h; exact absurd h (by simp)
        | ok r2 =>
          rw [hloop] at h
          dsimp only at h
          injection h with h2
          have h3 := congrArg (fun r => r.1) h2
          dsimp only at h3
          rw [← h3, ih ys mask memN mm (some cst) (some a) r2.1 r2.2.1 r2.2.2 hloop,
            call_length bOf fh ly xs mask memN mm (some c) ys c2 a hcall]

theorem runDecoder_out_length {α κ γf γ δ : Type} (D : SelfAttentionDecoder α κ γf γ δ)
    (inputs : List α) (sl : Option Nat) (cache : Option (List (LayerCache κ)))
    (memory : Option (MemoryArg (List α))) (msl : Option (MemoryArg Nat))
    (stepo : Option Nat) (tr : Bool) (os : List α) (cs : List (LayerCache κ))
    (attn : Option (List γ))
    (h : D.runDecoder inputs sl cache memory msl stepo tr = .ok (os, cs, attn)) :
    os.length = inputs.length := by
  obtain ⟨mmv, OUT, _, hll, hos⟩ :=
    runDecoder_inv D inputs sl cache memory msl stepo tr os cs attn h
  rw [hos, List.length_map,
    layersLoop_out_length D.batchOf D.firstHead D.layers _ _ _ mmv cache none OUT cs
      (some attn) hll,
    processInputs_length]

/-- C8: `step` expands its single-timestep input `[batch, units]` to a
length-1 sequence, runs the shared core with the threaded state, no
sequence length, and `step = timestep` — so position encoding is applied at
position `timestep + 1` — and squeezes the result (and the attention, when
present) back to a single slice.  On success the core's output over the
length-1 sequence always has time extent exactly 1, so the squeeze is total
on the success path, and `step`'s successes are exactly the core's. -/
theorem step_expand_squeeze {α κ γf γ δ : Type} (D : SelfAttentionDecoder α κ γf γ δ)
    (x : α) (t : Nat) (state : Option (List (LayerCache κ)))
    (memory : Option (MemoryArg (List α))) (msl : Option (MemoryArg Nat))
    (tr : Bool) :
    processInputs D [x] (some t) tr = [procSlice D t tr x] ∧
    (∀ os s2 aw, D.runDecoder [x] none state memory msl (some t) tr =
      .ok (os, s2, aw) → os.length = 1) ∧
    (∀ o s2 a, D.step x t state memory msl tr = .ok (o, s2, a) ↔
      ∃ aw, D.runDecoder [x] none state memory msl (some t) tr = .ok ([o], s2, aw) ∧
        ((aw = none ∧ a = none) ∨ ∃ g, aw = some [g] ∧ a = some g)) := by
  refine ⟨processInputs_single D x t tr, ?_, ?_⟩
  · intro os s2 aw h
    exact runDecoder_out_length D [x] none state memory msl (some t) tr os s2 aw h
  · intro o s2 a
    constructor
    · intro h
      unfold SelfAttentionDecoder.step at h
      cases hr : D.runDecoder [x] none state memory msl (some t) tr with
      | error e => rw [hr] at h; exact absurd h (by simp)
      | ok r =>
        obtain ⟨os, s3, aw⟩ := r
        rw [hr] at h
        dsimp only at h
        cases hsq : squeeze1 os with
        | error e => rw [hsq] at h; exact absurd h (by simp)
        | ok o2 =>
          rw [hsq] at h
          dsimp only at h
          have hos : os = [o2] := (squeeze1_ok_iff os o2).mp hsq
          cases aw with
          | none =>
            dsimp only at h
            injection h with h2
            injection h2 with e1 e23
            injection e23 with e2 e3
            subst e1; subst e2
            refine ⟨none, ?_, Or.inl ⟨rfl, e3.symm⟩⟩
            rw [hos]
          | some ws =>
            dsimp only at h
            cases hsq2 : squeeze1 ws with
            | error e => rw [hsq2] at h; exact absurd h (by simp)
            | ok g =>
              rw [hsq2] at h
              dsimp only at h
              injection h with h2
              injection h2 with e1 e23
              injection e23 with e2 e3
              subst e1; subst e2
              have hws : ws = [g] := (squeeze1_ok_iff ws g).mp hsq2
              refine ⟨some ws, ?_, Or.inr ⟨g, by rw [hws], e3.symm⟩⟩
              rw [hos]
    · intro ⟨aw, hr, hd⟩
      unfold SelfAttentionDecoder.step
      rw [hr]
      dsimp only
      rcases hd with ⟨haw, ha⟩ | ⟨g, haw, ha⟩
      · subst haw; subst ha; rfl
      · subst haw; subst ha; rfl

/-- Witness for `step_expand_squeeze` at a concrete step call. -/
theorem step_expand_squeeze_witness :
    ∃ o s2 a aw,
      D0.step (5 : Int) 0 (some (D0.getInitialState 4 (0 : Nat) (none : Option Unit)))
        mem0 msl0 false = .ok (o, s2, a) ∧
      D0.runDecoder [(5 : Int)] none
        (some (D0.getInitialState 4 (0 : Nat) (none : Option Unit))) mem0 msl0
        (some 0) false = .ok ([o], s2, aw) ∧
      ((aw = none ∧ a = none) ∨ ∃ g, aw = some [g] ∧ a = some g) := by
  have hOk : (D0.step (5 : Int) 0
      (some (D0.getInitialState 4 (0 : Nat) (none : Option Unit)))
      mem0 msl0 false).isOk = true := by decide
  cases hE : D0.step (5 : Int) 0
      (some (D0.getInitialState 4 (0 : Nat) (none : Option Unit))) mem0 msl0 false with
  | error e =>
    rw [hE] at hOk
    simp [Except.isOk, Except.toBool] at hOk
  | ok r =>
    obtain ⟨o, s2, a⟩ := r
    obtain ⟨aw, h1, h2⟩ :=
      ((step_expand_squeeze D0 (5 : Int) 0
        (some (D0.getInitialState 4 (0 : Nat) (none : Option Unit))) mem0 msl0
        false).2.2 o s2 a).mp hE
    exact ⟨o, s2, a, aw, rfl, h1, h2⟩

/-! ### C2: cache growth invariant -/

theorem crossKVs_length {α κ γf : Type} (bOf : α → Nat) (heads headDim : Nat) :
    ∀ (a : List (CrossAttnLayer α κ γf)) (b : List (List α)) (c : List MemMask),
      (crossKVs bOf heads headDim a b c).length =
        min a.length (min b.length c.length) := by
  intro a
  induction a with
  | nil => intro b c; simp [crossKVs]
  | cons cw a ih =>
    intro b c
    cases b with
    | nil => simp [crossKVs]
    | cons mem b =>
      cases c with
      | nil => simp [crossKVs]
      | cons mk c =>
        simp only [crossKVs, List.length_cons, ih]
        omega

theorem crossKVs_getElem {α κ γf : Type} (bOf : α → Nat) (heads headDim : Nat) :
    ∀ (a : List (CrossAttnLayer α κ γf)) (b : List (List α)) (ms : List MemMask)
      (j : Nat) (cw : CrossAttnLayer α κ γf) (mem : List α) (mk : MemMask),
      a[j]? = some cw → b[j]? = some mem → ms[j]? = some mk →
      (crossKVs bOf heads headDim a b ms)[j]? =
        some (projMem bOf heads headDim cw mem) := by
  intro a
  induction a with
  | nil => intro b ms j cw mem mk ha _ _; simp at ha
  | cons cw0 a ih =>
    intro b ms j cw mem mk ha hb hc
    cases b with
    | nil => simp at hb
    | cons mem0 b =>
      cases ms with
      | nil => simp at hc
      | cons mk0 ms =>
        cases j with
        | zero =>
          simp only [List.getElem?_cons_zero] at ha hb
          injection ha with ha2
          injection hb with hb2
          subst ha2; subst hb2
          simp [crossKVs]
        | succ j =>
          simp only [List.getElem?_cons_succ] at ha hb hc
          simp only [crossKVs, List.getElem?_cons_succ]
          exact ih b ms j cw mem mk ha hb hc

theorem stackRel_extract {α κ γf γ : Type} (bOf : α → Nat) (fh : γf → γ)
    (memN : Option (List (List α))) (mm : Option (List MemMask)) :
    ∀ (ls : List (DecLayer α κ γf)) (ZS : List α) (t : Nat)
      (scs : List (LayerCache κ)),
      StackRel bOf fh memN mm ls ZS t scs →
      scs.length = ls.length ∧
      ∀ (i : Nat) (ly : DecLayer α κ γf) (c : LayerCache κ),
        ls[i]? = some ly → scs[i]? = some c →
        c.self_kv.keys.slices.length = min t ZS.length ∧
        c.self_kv.values.slices.length = min t ZS.length ∧
        (0 < t → c.memory_kv =
          match memN, mm with
          | some mems, some masks =>
            crossKVs bOf ly.heads (ly.units / ly.heads) ly.cross mems masks
          | _, _ => []) := by
  intro ls
  induction ls with
  | nil =>
    intro ZS t scs hsr
    cases hsr
    exact ⟨rfl, fun i ly c h1 _ => by simp at h1⟩
  | cons ly0 rest ih =>
    intro ZS t scs hsr
    cases hsr with
    | cons _ _ _ YS C0 A0 _ c cs hc hcall hlen hrest =>
      obtain ⟨hl1, hfacts⟩ := ih YS t cs hrest
      refine ⟨by simp [hl1], ?_⟩
      intro i ly c2 h1 h2
      cases i with
      | zero =>
        simp only [List.getElem?_cons_zero] at h1 h2
        injection h1 with h1e
        injection h2 with h2e
        subst h1e; subst h2e
        obtain ⟨k1, k2, _, k4⟩ := hc
        refine ⟨?_, ?_, k4⟩
        · rw [k1, List.length_take]
          simp [selfKeysAll]
        · rw [k2, List.length_take]
          simp [selfValsAll]
      | succ i =>
        simp only [List.getElem?_cons_succ] at h1 h2
        have := hfacts i ly c2 h1 h2
        rw [hlen] at this
        exact this

theorem zip_getElem {a b : Type} (l1 : List a) (l2 : List b) (j : Nat) (x : a)
    (y : b) (h1 : l1[j]? = some x) (h2 : l2[j]? = some y) :
    (l1.zip l2)[j]? = some (x, y) :=
  getq_zipWith Prod.mk l1 l2 j x y h1 h2

/-- C2: after `k` successful `step` calls (with memory source and length
lists matching the configured `num_sources`) starting from
`get_initial_state`, every layer's `self_kv` key and value histories have
time-dimension exactly `k`; from the first step on, every layer's
`memory_kv` equals the per-source memory projections — a value determined by
the memory alone, hence computed once and unchanged by all subsequent steps —
whose `j`-th key/value time-dimension equals the `j`-th memory source's
length. -/
theorem cache_growth {α κ γf γ δ DT : Type}
    (D : SelfAttentionDecoder α κ γf γ δ) (hWF : D.wellFormed)
    (xs : List α) (marg : MemoryArg (List α)) (larg : MemoryArg Nat)
    (B : Nat) (dtype : DT)
    (hM : marg.norm.length = D.numSources) (hL : larg.norm.length = D.numSources)
    (res : List (α × Option γ)) (sfin : List (LayerCache κ))
    (hiter : iterSteps D (some marg) (some larg) false xs 0
      (D.getInitialState B dtype (none : Option Unit)) = .ok (res, sfin)) :
    sfin.length = D.layers.length ∧
    (∀ c ∈ sfin, c.self_kv.keys.slices.length = xs.length ∧
      c.self_kv.values.slices.length = xs.length) ∧
    (0 < xs.length →
      ∀ (i : Nat) (ly : DecLayer α κ γf) (c : LayerCache κ),
        D.layers[i]? = some ly → sfin[i]? = some c →
        c.memory_kv = crossKVs D.batchOf ly.heads (ly.units / ly.heads) ly.cross
          marg.norm ((marg.norm.zip larg.norm).map fun p => ⟨p.2, p.1.length⟩) ∧
        c.memory_kv.length = D.numSources ∧
        ∀ (j : Nat) (mem : List α), marg.norm[j]? = some mem →
          ∃ kv, c.memory_kv[j]? = some kv ∧
            kv.keys.slices.length = mem.length ∧
            kv.values.slices.length = mem.length) := by
  cases xs with
  | nil =>
    simp only [iterSteps] at hiter
    injection hiter with h2
    have hres := congrArg (fun r => r.2) h2
    dsimp only at hres
    rw [← hres]
    refine ⟨by simp [SelfAttentionDecoder.getInitialState], ?_, fun h => absurd h (by simp)⟩
    intro c hc
    simp only [SelfAttentionDecoder.getInitialState, List.mem_map] at hc
    obtain ⟨_, _, hceq⟩ := hc
    rw [← hceq]
    exact ⟨rfl, rfl⟩
  | cons x rest =>
    have hxs : 0 < (x :: rest).length := by simp
    -- the first step succeeded, so the decoder has at least one layer
    have hls : D.layers ≠ [] := by
      have hiter2 := hiter
      simp only [iterSteps] at hiter2
      cases hstep : D.step x 0 (some (D.getInitialState B dtype (none : Option Unit)))
          (some marg) (some larg) false with
      | error e => rw [hstep] at hiter2; exact absurd hiter2 (by simp)
      | ok r =>
        obtain ⟨o, s2, a⟩ := r
        unfold SelfAttentionDecoder.step at hstep
        cases hr : D.runDecoder [x] none
            (some (D.getInitialState B dtype (none : Option Unit)))
            (some marg) (some larg) (some 0) false with
        | error e => rw [hr] at hstep; exact absurd hstep (by simp)
        | ok r2 =>
          obtain ⟨os, s3, aw⟩ := r2
          obtain ⟨mmv, OUT, _, hll, _⟩ :=
            runDecoder_inv D [x] none _ (some marg) (some larg) (some 0) false
              os s3 aw hr
          intro hnil
          rw [hnil] at hll
          simp only [layersLoop] at hll
          injection hll with h2
          have h3 := congrArg (fun r => r.2.2) h2
          dsimp only at h3
          exact absurd h3 (by simp)
    obtain ⟨zs, cs, af, hloop, _, _, hne⟩ :=
      layersLoop_ok_construct D.batchOf D.firstHead D.layers
        (processInputs D (x :: rest) none false)
        (some ⟨(processInputs D (x :: rest) none false).length,
               (processInputs D (x :: rest) none false).length⟩)
        (some marg.norm)
        (some ((marg.norm.zip larg.norm).map fun p => ⟨p.2, p.1.length⟩)) none
        (fun mems h => ⟨_, rfl⟩)
    obtain ⟨a2, ha2⟩ := hne hls
    subst ha2
    obtain ⟨res2, sfin2, hiterC, _, hsrf, _⟩ :=
      iterChain D (some marg) (some larg) (x :: rest) _
        zs cs a2 rfl (fun mems h => ⟨_, rfl⟩) hloop (x :: rest) 0
        (D.layers.map fun _ =>
          ⟨AttnCache.zeros κ B D.numHeads (D.numUnits / D.numHeads),
           List.replicate D.numSources
             (AttnCache.zeros κ B D.numHeads (D.numUnits / D.numHeads))⟩)
        (stackInit D.batchOf D.firstHead _ _ D.numSources _ ⟨rfl, rfl⟩ D.layers
          (processInputs D (x :: rest) none false) none _
          (fun ly hly => (hWF ly hly).2.2.1) hloop)
        (fun i => by rw [Nat.zero_add]) (by omega)
    have hinit : D.getInitialState (κ := κ) B dtype (none : Option Unit) =
        D.layers.map fun _ =>
          ⟨AttnCache.zeros κ B D.numHeads (D.numUnits / D.numHeads),
           List.replicate D.numSources
             (AttnCache.zeros κ B D.numHeads (D.numUnits / D.numHeads))⟩ := rfl
    rw [hinit, hiterC] at hiter
    injection hiter with h2
    have hsf : sfin2 = sfin := congrArg (fun r => r.2) h2
    subst hsf
    rw [Nat.zero_add] at hsrf
    obtain ⟨hlen1, hfacts⟩ :=
      stackRel_extract D.batchOf D.firstHead _ _ D.layers
        (processInputs D (x :: rest) none false) (x :: rest).length sfin2 hsrf
    have hZlen : (processInputs D (x :: rest) none false).length = (x :: rest).length :=
      processInputs_length D (x :: rest) none false
    refine ⟨hlen1, ?_, ?_⟩
    · intro c hc
      obtain ⟨i, hi⟩ := List.mem_iff_getElem?.mp hc
      have hib : i < D.layers.length := by
        rcases List.getElem?_eq_some.mp hi with ⟨hb, _⟩
        omega
      have hly : D.layers[i]? = some (D.layers[i]) := List.getElem?_eq_getElem hib
      obtain ⟨k1, k2, _⟩ := hfacts i (D.layers[i]) c hly hi
      rw [hZlen, Nat.min_self] at k1 k2
      exact ⟨k1, k2⟩
    · intro _ i ly c hly hc
      obtain ⟨_, _, k3⟩ := hfacts i ly c hly hc
      have hckv := k3 (by simp)
      simp only [Option.map_some'] at hckv
      refine ⟨hckv, ?_, ?_⟩
      · rw [hckv, crossKVs_length, (hWF ly (by
          rcases List.getElem?_eq_some.mp hly with ⟨hb, he⟩
          rw [← he]
          exact List.getElem_mem hb)).2.2.1, hM]
        simp [List.length_zip]
        omega
      · intro j mem hmem
        have hjM : j < marg.norm.length := by
          rcases List.getElem?_eq_some.mp hmem with ⟨hb, _⟩
          omega
        have hjL : j < larg.norm.length := by omega
        obtain ⟨len, hlen⟩ : ∃ len, larg.norm[j]? = some len :=
          ⟨larg.norm[j], List.getElem?_eq_getElem hjL⟩
        have hcross : ly.cross.length = D.numSources := (hWF ly (by
          rcases List.getElem?_eq_some.mp hly with ⟨hb, he⟩
          rw [← he]
          exact List.getElem_mem hb)).2.2.1
        have hjC : j < ly.cross.length := by omega
        have hcw : ly.cross[j]? = some (ly.cross[j]) := List.getElem?_eq_getElem hjC
        have hmk : ((marg.norm.zip larg.norm).map fun p =>
            (⟨p.2, p.1.length⟩ : MemMask))[j]? = some ⟨len, mem.length⟩ := by
          rw [List.getElem?_map, zip_getElem marg.norm larg.norm j mem len hmem hlen]
          rfl
        refine ⟨projMem D.batchOf ly.heads (ly.units / ly.heads) (ly.cross[j]) mem,
          ?_, by simp [projMem], by simp [projMem]⟩
        rw [hckv]
        exact crossKVs_getElem D.batchOf ly.heads (ly.units / ly.heads) ly.cross
          marg.norm _ j (ly.cross[j]) mem ⟨len, mem.length⟩ hcw hmem hmk

/-- Witness for `cache_growth`: two concrete steps grow each layer's
`self_kv` time-dimension to exactly 2. -/
theorem cache_growth_witness :
    ∃ res sfin,
      iterSteps D0 mem0 msl0 false [(5 : Int), 7] 0
        (D0.getInitialState 4 (0 : Nat) (none : Option Unit)) = .ok (res, sfin) ∧
      sfin.length = D0.layers.length ∧
      ∀ c ∈ sfin, c.self_kv.keys.slices.length = 2 ∧
        c.self_kv.values.slices.length = 2 := by
  have hOk : (iterSteps D0 mem0 msl0 false [(5 : Int), 7] 0
      (D0.getInitialState 4 (0 : Nat) (none : Option Unit))).isOk = true := by decide
  cases hE : iterSteps D0 mem0 msl0 false [(5 : Int), 7] 0
      (D0.getInitialState 4 (0 : Nat) (none : Option Unit)) with
  | error e =>
    rw [hE] at hOk
    simp [Except.isOk, Except.toBool] at hOk
  | ok r =>
    obtain ⟨res, sfin⟩ := r
    obtain ⟨h1, h2, _⟩ :=
      cache_growth D0 (by unfold SelfAttentionDecoder.wellFormed; decide)
        [(5 : Int), 7] (MemoryArg.one [1, 2, 3]) (MemoryArg.one 2) 4 (0 : Nat)
        rfl rfl res sfin hE
    exact ⟨res, sfin, rfl, h1, fun c hc => by simpa using h2 c hc⟩
